import Mathlib

/-!
Verification of the hash-verified string interning store of `string_id`
(src/basic_database.hpp, src/database.hpp, src/include/error.hpp,
src/include/generator.hpp), as a shallow embedding.

Byte strings are lists of natural numbers; a value 0 is the C null byte.
A bucket chain (map_database::node_list) is a list of nodes ordered as the
singly linked list is in memory; splicing a node between two others becomes
insertion at the corresponding list position.  The store's bucket array is a
list of bucket chains indexed by hash modulo bucket count.  The C++ `double`
max_load_factor is embedded as a rational number; the values exercised by the
claims (1.0, 0.1 and friends) are exactly representable, so the embedded
floor computations agree with the source's.
-/

namespace StringId

/-- Result of an insertion, mirroring enum class insert_status in
basic_database.hpp (collision, new_string, old_string). -/
inductive insert_status
  | collision
  | new_string
  | old_string
deriving DecidableEq

/-- Bytes written by C strncpy(dest, src, n): bytes of src are copied up to the
first null byte, and the rest of the n destination bytes is filled with null
bytes.  Reading past the provided source bytes is undefined behaviour in C and
is modelled as reading a null byte. -/
def strncpyBytes : List Nat → Nat → List Nat
  | _, 0 => []
  | [], n + 1 => List.replicate (n + 1) 0
  | b :: bs, n + 1 => if b = 0 then List.replicate (n + 1) 0 else b :: strncpyBytes bs n

/-- C strncmp(a, b, n) == 0: at most n bytes are compared, stopping at the
first differing byte or at a null byte present in both strings.  Reading past
the provided bytes is modelled as reading a null byte. -/
def strncmpEq : List Nat → List Nat → Nat → Bool
  | _, _, 0 => true
  | [], [], _ + 1 => true
  | [], b :: _, _ + 1 => b == 0
  | a :: _, [], _ + 1 => a == 0
  | a :: as, b :: bs, n + 1 => a == b && (a == 0 || strncmpEq as bs n)

/-- strequal(prefix, str, length, other_str) from basic_database.hpp: walks the
null-terminated prefix comparing it byte by byte against other_str, then
compares the remaining other_str bytes against str with strncmp(str, ., length).
It decides whether prefix ++ str equals the null-terminated other_str. -/
def strequal : List Nat → List Nat → Nat → List Nat → Bool
  | [], str, len, other => strncmpEq str other len
  | p :: ps, str, len, other =>
    if p = 0 then strncmpEq str other len
    else
      match other with
      | [] => false
      | o :: os => p == o && strequal ps str len os

/-- The bytes a C consumer reads from a null-terminated string region. -/
def cString (l : List Nat) : List Nat := l.takeWhile (fun b => b != 0)

/-- A map_database::node_list::node: the fixed header (length, hash) plus the
string bytes stored inline right after it, terminator byte included, all in one
allocation.  The next pointer is represented by the node's position in the
bucket chain list. -/
structure Node where
  length : Nat
  hash : Nat
  mem : List Nat
deriving DecidableEq

/-- node::get_str: pointer to the inline bytes (terminator included). -/
def Node.get_str (n : Node) : List Nat := n.mem

/-- The node constructor node(str, length, h, next): strncpy the string bytes
after the header and write the terminator at dest[length]. -/
def mkNode (str : List Nat) (len : Nat) (h : Nat) : Node :=
  ⟨len, h, strncpyBytes str len ++ [0]⟩

/-- The prefix node constructor node(prefix, length_prefix, str, length_string,
h, next): strncpy the prefix bytes, then the suffix bytes, then the
terminator; length is length_prefix + length_string. -/
def mkNodePrefix (preBytes : List Nat) (lenPre : Nat) (str : List Nat) (len : Nat) (h : Nat) : Node :=
  ⟨lenPre + len, h, strncpyBytes preBytes lenPre ++ strncpyBytes str len ++ [0]⟩

/-- node_list::find_node: scan the chain while cur->hash < h; the asserts
(empty chain, running off the end, or stopping at a larger hash) are modelled
as returning none. -/
def find_node (h : Nat) : List Node → Option Node
  | [] => none
  | n :: ns => if n.hash < h then find_node h ns else if n.hash = h then some n else none

/-- node_list::insert: the insert_pos scan and the following branch of insert,
fused into one traversal.  While cur->hash < h the scan advances; at an equal
hash it compares with strncmp(str, cur->get_str(), length) and returns
old_string or collision leaving the chain unchanged; otherwise the new node is
spliced in at the sorted position. -/
def nlInsert (h : Nat) (str : List Nat) (len : Nat) : List Node → insert_status × List Node
  | [] => (.new_string, [mkNode str len h])
  | n :: ns =>
    if n.hash < h then
      let r := nlInsert h str len ns
      (r.1, n :: r.2)
    else if n.hash = h then
      ((if strncmpEq str n.mem len then .old_string else .collision), n :: ns)
    else
      (.new_string, mkNode str len h :: n :: ns)

/-- The tail of node_list::insert_prefix after the prefix node has been found:
the insert_pos scan on the target chain; at an equal hash it compares with
strequal(prefix_node->get_str(), str, length, cur->get_str()); otherwise the
new node is built from prefix bytes plus suffix bytes and spliced in. -/
def nlInsertPrefixCore (pn : Node) (h : Nat) (str : List Nat) (len : Nat) :
    List Node → insert_status × List Node
  | [] => (.new_string, [mkNodePrefix pn.mem pn.length str len h])
  | n :: ns =>
    if n.hash < h then
      let r := nlInsertPrefixCore pn h str len ns
      (r.1, n :: r.2)
    else if n.hash = h then
      ((if strequal pn.mem str len n.mem then .old_string else .collision), n :: ns)
    else
      (.new_string, mkNodePrefix pn.mem pn.length str len h :: n :: ns)

/-- node_list::insert_prefix(prefix_bucket, prefix, hash, str, length): the
prefix node is looked up first (its find_node asserts are modelled as none),
then the target chain is scanned. -/
def nlInsertPre (preBucket : List Node) (p h : Nat) (str : List Nat) (len : Nat)
    (target : List Node) : Option (insert_status × List Node) :=
  (find_node p preBucket).map (fun pn => nlInsertPrefixCore pn h str len target)

/-- One splice of node_list::rehash: insert_pos on the destination chain, then
relink the node there.  The asserted-impossible case of an equal hash already
present (assert(!pos.exists)) leaves the destination chain unchanged and drops
the node, which is what the NDEBUG code does. -/
def rehashSplice (x : Node) : List Node → List Node
  | [] => [x]
  | n :: ns =>
    if n.hash < x.hash then n :: rehashSplice x ns
    else if n.hash = x.hash then n :: ns
    else x :: n :: ns

/-- Relinking one node into the new bucket array at bucket hash % size. -/
def rehashStep (size : Nat) (b : List (List Node)) (n : Node) : List (List Node) :=
  b.set (n.hash % size) (rehashSplice n (b.getD (n.hash % size) []))

/-- node_list::rehash(buckets, size): relink every node of this chain, in chain
order, into the new bucket array. -/
def rehashInto (size : Nat) (b : List (List Node)) (l : List Node) : List (List Node) :=
  l.foldl (rehashStep size) b

/-- map_database: the bucket array, the live item count, the bucket count, the
maximum load factor and the precomputed growth threshold. -/
structure map_database where
  buckets_ : List (List Node)
  no_items_ : Nat
  no_buckets_ : Nat
  max_load_factor_ : ℚ
  next_resize_ : Nat
deriving DecidableEq

/-- The growth threshold static_cast<size_t>(floor(no_buckets * max_load_factor)). -/
def nextResizeOf (n : Nat) (f : ℚ) : Nat := (⌊(n : ℚ) * f⌋).toNat

/-- The map_database(size, max_load_factor) constructor: size empty buckets,
no items, and next_resize = floor(size * max_load_factor). -/
def mkMapDatabase (size : Nat) (f : ℚ) : map_database :=
  ⟨List.replicate size [], 0, size, f, nextResizeOf size f⟩

/-- The bucket chain responsible for a hash: buckets_[h % no_buckets_]. -/
def bucketOf (db : map_database) (h : Nat) : List Node :=
  db.buckets_.getD (h % db.no_buckets_) []

/-- map_database::rehash: allocate growth_factor (= 2) times as many empty
buckets, relink every chain into them, and recompute the growth threshold. -/
def mdRehash (db : map_database) : map_database :=
  ⟨db.buckets_.foldl (rehashInto (2 * db.no_buckets_)) (List.replicate (2 * db.no_buckets_) []),
   db.no_items_, 2 * db.no_buckets_, db.max_load_factor_,
   nextResizeOf (2 * db.no_buckets_) db.max_load_factor_⟩

/-- The guard at the top of map_database::insert and insert_prefix:
if (no_items_ + 1 >= next_resize_) rehash(). -/
def mdGrow (db : map_database) : map_database :=
  if db.no_items_ + 1 ≥ db.next_resize_ then mdRehash db else db

/-- map_database::insert(hash, str, length): grow if needed, insert into bucket
hash % no_buckets_, and count the item if the status is new_string. -/
def mdInsert (db : map_database) (h : Nat) (str : List Nat) (len : Nat) :
    insert_status × map_database :=
  let g := mdGrow db
  let r := nlInsert h str len (g.buckets_.getD (h % g.no_buckets_) [])
  (r.1, ⟨g.buckets_.set (h % g.no_buckets_) r.2,
         if r.1 = .new_string then g.no_items_ + 1 else g.no_items_,
         g.no_buckets_, g.max_load_factor_, g.next_resize_⟩)

/-- map_database::insert_prefix(hash, prefix, str, length): grow if needed, then
node_list::insert_prefix on bucket hash % no_buckets_ with prefix bucket
prefix % no_buckets_; none models the assertion failure of a missing prefix. -/
def mdInsertPrefix (db : map_database) (h p : Nat) (str : List Nat) (len : Nat) :
    Option (insert_status × map_database) :=
  let g := mdGrow db
  (nlInsertPre (bucketOf g p) p h str len (g.buckets_.getD (h % g.no_buckets_) [])).map
    (fun r => (r.1, ⟨g.buckets_.set (h % g.no_buckets_) r.2,
                     if r.1 = .new_string then g.no_items_ + 1 else g.no_items_,
                     g.no_buckets_, g.max_load_factor_, g.next_resize_⟩))

/-- map_database::lookup(hash): find_node in bucket hash % no_buckets_ and
return its inline bytes (terminator included); the asserts of a never-inserted
hash are modelled as none. -/
def mdLookup (db : map_database) (h : Nat) : Option (List Nat) :=
  (find_node h (bucketOf db h)).map Node.mem

/-- The default basic_database::insert_prefix: read the prefix through the
public lookup as a std::string (the bytes up to the terminator), append str
(read as a null-terminated C string by std::string's operator+), and call
insert with the concatenation's c_str() buffer and length
prefix_str.size() + length. -/
def mdInsertPrefixGeneric (db : map_database) (h p : Nat) (str : List Nat) (len : Nat) :
    Option (insert_status × map_database) :=
  (mdLookup db p).map (fun m =>
    let preStr := cString m
    mdInsert db h (preStr ++ cString str ++ [0]) (preStr.length + len))

/-- The state both insert paths produce when a new node is spliced in: bucket
h % no_buckets_ replaced by the chain with the node spliced at its sorted
position, and the item count incremented. -/
def spliceDb (g : map_database) (h : Nat) (x : Node) : map_database :=
  ⟨g.buckets_.set (h % g.no_buckets_) (rehashSplice x (bucketOf g h)),
   g.no_items_ + 1, g.no_buckets_, g.max_load_factor_, g.next_resize_⟩

/-- Folding a sequence of insert calls over a store; each pair carries its hash
and the exact byte span handed to insert. -/
def runInserts (db : map_database) (ps : List (Nat × List Nat)) : map_database :=
  ps.foldl (fun d q => (mdInsert d q.1 q.2 q.2.length).2) db

/-- An operation against the store, for stating invariants that hold after
every completed insert or insert_prefix call. -/
inductive DbOp
  | ins (h : Nat) (s : List Nat) (len : Nat)
  | insPre (h p : Nat) (s : List Nat) (len : Nat)

/-- Running one operation; none models the assertion failure (undefined
behaviour) of insert_prefix on a missing prefix hash. -/
def applyOp (db : map_database) : DbOp → Option map_database
  | .ins h s len => some (mdInsert db h s len).2
  | .insPre h p s len => (mdInsertPrefix db h p s len).map Prod.snd

/-- Running a sequence of operations, stopping at an assertion failure. -/
def runOps (db : map_database) : List DbOp → Option map_database
  | [] => some db
  | op :: ops => (applyOp db op).bind (fun d => runOps d ops)

/-- A bucket chain is strictly increasing by hash. -/
def SortedBucket (l : List Node) : Prop :=
  l.Pairwise (fun a b => a.hash < b.hash)

/-- The structural invariant of map_database: the bucket array has
no_buckets_ > 0 chains, every chain is strictly increasing by hash, and every
node sits in the chain selected by its hash modulo the bucket count. -/
def DbOk (db : map_database) : Prop :=
  db.buckets_.length = db.no_buckets_ ∧ 0 < db.no_buckets_ ∧
    ∀ i < db.buckets_.length,
      SortedBucket (db.buckets_.getD i []) ∧
        ∀ nd ∈ db.buckets_.getD i [], nd.hash % db.no_buckets_ = i

/-- A node is stored: it is a member of the chain its hash selects. -/
def StoredN (db : map_database) (nd : Node) : Prop :=
  nd ∈ bucketOf db nd.hash

/-- Some entry with this hash exists (the condition insert's existence check
decides). -/
def hasHash (db : map_database) (h : Nat) : Prop :=
  ∃ nd ∈ bucketOf db h, nd.hash = h

/-- All stored nodes, in bucket-array order. -/
def allNodes (db : map_database) : List Node := db.buckets_.flatten

instance (l : List Node) : Decidable (SortedBucket l) :=
  List.instDecidablePairwise l

instance (db : map_database) : Decidable (DbOk db) := by
  unfold DbOk
  exact inferInstance

instance (db : map_database) (nd : Node) : Decidable (StoredN db nd) := by
  unfold StoredN
  exact inferInstance

instance (db : map_database) (h : Nat) : Decidable (hasHash db h) := by
  unfold hasHash
  exact inferInstance

/-- no_tries_generation from error.hpp. -/
def no_tries_generation : Nat := 8

/-- default_generation_error_handler: throws generation_error (none) once the
try count reaches no_tries_generation, else answers true (retry). -/
def default_generation_error_handler (no : Nat) : Option Bool :=
  if no ≥ no_tries_generation then none else some true

/-- Outcome of detail::try_generate: the index of the attempt whose result is
returned, or the generation_error thrown with the given try count. -/
inductive GenOutcome
  | accepted (idx : Nat)
  | generationError (tries : Nat)
deriving DecidableEq

/-- The loop of detail::try_generate: attempt 0 happens before the loop; while
the last attempt's status is not new_string the handler is consulted with the
try counter; true retries with the next attempt, false exits the loop keeping
the last result as-is, and a throw (none) propagates.  The handler is a
parameter, and fuel bounds the number of iterations so the loop is total; none
means the fuel ran out. -/
def tgLoopWith (statuses : Nat → insert_status) (handler : Nat → Option Bool) :
    Nat → Nat → Option GenOutcome
  | 0, _ => none
  | fuel + 1, counter =>
    if statuses (counter - 1) = .new_string then some (.accepted (counter - 1))
    else
      match handler counter with
      | none => some (.generationError counter)
      | some true => tgLoopWith statuses handler fuel (counter + 1)
      | some false => some (.accepted (counter - 1))

/-- detail::try_generate under the default generation error handler, which
stops the loop not later than try count no_tries_generation, so this fuel
always suffices. -/
def tryGenerateDefault (statuses : Nat → insert_status) : Option GenOutcome :=
  tgLoopWith statuses default_generation_error_handler (no_tries_generation + 1) 1

/-- A two-bucket store holding the single pair (0, the byte 65), with the item
count at its growth threshold, so that the next call grows the table first. -/
def dbW1 : map_database := ⟨[[mkNode [65] 1 0], []], 1, 2, 1, 2⟩

/-- A two-bucket store holding the single pair (1, the byte 65), with the item
count at its growth threshold. -/
def dbWPre : map_database := ⟨[[], [mkNode [65] 1 1]], 1, 2, 1, 2⟩

/-- A four-bucket store holding (1, byte 65) and (2, bytes 65 66). -/
def dbA4 : map_database := ⟨[[], [mkNode [65] 1 1], [mkNode [65, 66] 2 2], []], 2, 4, 1, 4⟩

/-- The store dbA4 with the string under hash 1 replaced by the byte 88; it
agrees with dbA4 on everything except that one bucket chain. -/
def dbB4 : map_database := ⟨[[], [mkNode [88] 1 1], [mkNode [65, 66] 2 2], []], 2, 4, 1, 4⟩

/-- A two-bucket store holding (0, byte 65) and (1, byte 66). -/
def dbW6 : map_database := ⟨[[mkNode [65] 1 0], [mkNode [66] 1 1]], 2, 2, 1, 2⟩

@[simp] theorem mkNode_length (s : List Nat) (len h : Nat) : (mkNode s len h).length = len := rfl

@[simp] theorem mkNode_hash (s : List Nat) (len h : Nat) : (mkNode s len h).hash = h := rfl

@[simp] theorem mkNode_mem (s : List Nat) (len h : Nat) :
    (mkNode s len h).mem = strncpyBytes s len ++ [0] := rfl

@[simp] theorem mkNodePrefix_hash (pre s : List Nat) (lp len h : Nat) :
    (mkNodePrefix pre lp s len h).hash = h := rfl

theorem getD_set_self {α : Type} (L : List α) (i : Nat) (x d : α) (h : i < L.length) :
    (L.set i x).getD i d = x := by
  simp [List.getD_eq_getElem?_getD, List.getElem?_set_self', List.getElem?_eq_getElem h]

theorem getD_set_ne {α : Type} (L : List α) (i j : Nat) (x d : α) (h : i ≠ j) :
    (L.set i x).getD j d = L.getD j d := by
  simp [List.getD_eq_getElem?_getD, List.getElem?_set_ne h]

theorem set_getD_self {α : Type} (L : List α) (i : Nat) (d : α) (h : i < L.length) :
    L.set i (L.getD i d) = L := by
  apply List.ext_getElem?
  intro j
  by_cases hji : i = j
  · subst hji
    simp [List.getElem?_set_self', List.getD_eq_getElem?_getD, List.getElem?_eq_getElem h]
  · simp [List.getElem?_set_ne hji]

theorem getD_replicate {α : Type} (n j : Nat) (x d : α) (h : j < n) :
    (List.replicate n x).getD j d = x := by
  simp [List.getD_eq_getElem?_getD, List.getElem?_replicate, h]

theorem mem_flatten_iff_getD {α : Type} (L : List (List α)) (y : α) :
    y ∈ L.flatten ↔ ∃ j < L.length, y ∈ L.getD j [] := by
  rw [List.mem_flatten]
  constructor
  · rintro ⟨l, hl, hy⟩
    obtain ⟨j, hj, rfl⟩ := List.mem_iff_getElem.mp hl
    refine ⟨j, hj, ?_⟩
    simpa [List.getD_eq_getElem?_getD, List.getElem?_eq_getElem hj] using hy
  · rintro ⟨j, hj, hy⟩
    refine ⟨L.getD j [], ?_, hy⟩
    have : L.getD j [] = L[j] := by
      simp [List.getD_eq_getElem?_getD, List.getElem?_eq_getElem hj]
    rw [this]
    exact List.getElem_mem hj

theorem strncpyBytes_zero (s : List Nat) : strncpyBytes s 0 = [] := by
  cases s <;> rfl

theorem strncpyBytes_cons (b : Nat) (bs : List Nat) (n : Nat) :
    strncpyBytes (b :: bs) (n + 1) =
      if b = 0 then List.replicate (n + 1) 0 else b :: strncpyBytes bs n := rfl

theorem strncmpEq_zero (a b : List Nat) : strncmpEq a b 0 = true := by
  cases a <;> cases b <;> rfl

theorem strncmpEq_cons (a : Nat) (as : List Nat) (b : Nat) (bs : List Nat) (n : Nat) :
    strncmpEq (a :: as) (b :: bs) (n + 1) = (a == b && (a == 0 || strncmpEq as bs n)) := rfl

theorem find_node_nil (h : Nat) : find_node h [] = none := rfl

theorem find_node_cons (h : Nat) (n : Node) (ns : List Node) :
    find_node h (n :: ns) =
      if n.hash < h then find_node h ns else if n.hash = h then some n else none := rfl

theorem nlInsert_cons (h : Nat) (s : List Nat) (len : Nat) (n : Node) (ns : List Node) :
    nlInsert h s len (n :: ns) =
      if n.hash < h then ((nlInsert h s len ns).1, n :: (nlInsert h s len ns).2)
      else if n.hash = h then
        ((if strncmpEq s n.mem len then .old_string else .collision), n :: ns)
      else (.new_string, mkNode s len h :: n :: ns) := rfl

theorem nlInsertPrefixCore_cons (pn : Node) (h : Nat) (s : List Nat) (len : Nat)
    (n : Node) (ns : List Node) :
    nlInsertPrefixCore pn h s len (n :: ns) =
      if n.hash < h then
        ((nlInsertPrefixCore pn h s len ns).1, n :: (nlInsertPrefixCore pn h s len ns).2)
      else if n.hash = h then
        ((if strequal pn.mem s len n.mem then .old_string else .collision), n :: ns)
      else (.new_string, mkNodePrefix pn.mem pn.length s len h :: n :: ns) := rfl

theorem rehashSplice_cons (x n : Node) (ns : List Node) :
    rehashSplice x (n :: ns) =
      if n.hash < x.hash then n :: rehashSplice x ns
      else if n.hash = x.hash then n :: ns
      else x :: n :: ns := rfl

theorem strncpyBytes_front (s : List Nat) (hs : (0 : Nat) ∉ s) :
    ∀ t : List Nat, strncpyBytes (s ++ t) s.length = s := by
  induction s with
  | nil => intro t; exact strncpyBytes_zero t
  | cons b bs ih =>
    intro t
    have hb : b ≠ 0 := fun hb0 => hs (hb0 ▸ List.mem_cons_self b bs)
    have hbs : (0 : Nat) ∉ bs := fun hm => hs (List.mem_cons_of_mem b hm)
    show strncpyBytes (b :: (bs ++ t)) (bs.length + 1) = b :: bs
    rw [strncpyBytes_cons, if_neg hb, ih hbs t]

theorem strncpyBytes_self (s : List Nat) (hs : (0 : Nat) ∉ s) :
    strncpyBytes s s.length = s := by
  have := strncpyBytes_front s hs []
  simpa using this

theorem strncmpEq_self : ∀ (len : Nat) (s : List Nat),
    strncmpEq s (strncpyBytes s len ++ [0]) len = true := by
  intro len
  induction len with
  | zero => intro s; exact strncmpEq_zero _ _
  | succ n ih =>
    intro s
    match s with
    | [] => rfl
    | b :: bs =>
      by_cases hb : b = 0
      · subst hb; rfl
      · rw [strncpyBytes_cons, if_neg hb, List.cons_append, strncmpEq_cons]
        simp [hb, ih bs]

theorem cString_append_null (s t : List Nat) (hs : (0 : Nat) ∉ s) :
    cString (s ++ 0 :: t) = s := by
  induction s with
  | nil => simp [cString]
  | cons b bs ih =>
    have hb : b ≠ 0 := fun hb0 => hs (hb0 ▸ List.mem_cons_self b bs)
    have hbs : (0 : Nat) ∉ bs := fun hm => hs (List.mem_cons_of_mem b hm)
    show cString (b :: (bs ++ 0 :: t)) = b :: bs
    rw [cString, List.takeWhile_cons_of_pos (by simpa using hb)]
    exact congrArg (b :: ·) (ih hbs)

theorem find_node_eq_some {h : Nat} :
    ∀ {l : List Node} {nd : Node}, find_node h l = some nd → nd ∈ l ∧ nd.hash = h := by
  intro l
  induction l with
  | nil => intro nd hf; exact absurd hf (by rw [find_node_nil]; simp)
  | cons n ns ih =>
    intro nd hf
    rw [find_node_cons] at hf
    by_cases h1 : n.hash < h
    · rw [if_pos h1] at hf
      obtain ⟨hm, hh⟩ := ih hf
      exact ⟨List.mem_cons_of_mem n hm, hh⟩
    · rw [if_neg h1] at hf
      by_cases h2 : n.hash = h
      · rw [if_pos h2] at hf
        injection hf with hf
        subst hf
        exact ⟨List.mem_cons_self n ns, h2⟩
      · rw [if_neg h2] at hf
        exact absurd hf (by simp)

theorem find_node_of_mem {h : Nat} :
    ∀ {l : List Node}, SortedBucket l →
      ∀ {nd : Node}, nd ∈ l → nd.hash = h → find_node h l = some nd := by
  intro l
  induction l with
  | nil => intro _ nd hm; exact absurd hm (by simp)
  | cons n ns ih =>
    intro hs nd hm hh
    rw [SortedBucket, List.pairwise_cons] at hs
    rcases List.mem_cons.mp hm with rfl | hm'
    · rw [find_node_cons, if_neg (by omega : ¬ nd.hash < h), if_pos hh]
    · have hlt : n.hash < h := hh ▸ hs.1 nd hm'
      rw [find_node_cons, if_pos hlt]
      exact ih hs.2 hm' hh

theorem find_node_eq_none {h : Nat} :
    ∀ {l : List Node}, SortedBucket l →
      (find_node h l = none ↔ ∀ nd ∈ l, nd.hash ≠ h) := by
  intro l
  induction l with
  | nil => intro _; rw [find_node_nil]; simp
  | cons n ns ih =>
    intro hs
    rw [SortedBucket, List.pairwise_cons] at hs
    rw [find_node_cons]
    by_cases h1 : n.hash < h
    · rw [if_pos h1, ih hs.2]
      constructor
      · intro hall nd hm
        rcases List.mem_cons.mp hm with rfl | hm'
        · omega
        · exact hall nd hm'
      · intro hall nd hm
        exact hall nd (List.mem_cons_of_mem n hm)
    · rw [if_neg h1]
      by_cases h2 : n.hash = h
      · rw [if_pos h2]
        constructor
        · intro hf; exact absurd hf (by simp)
        · intro hall; exact absurd h2 (hall n (List.mem_cons_self n ns))
      · rw [if_neg h2]
        constructor
        · intro _ nd hm
          rcases List.mem_cons.mp hm with rfl | hm'
          · exact h2
          · have := hs.1 nd hm'
            omega
        · intro _; rfl

theorem nlInsert_found {h : Nat} {nd : Node} :
    ∀ {l : List Node}, find_node h l = some nd → ∀ (s : List Nat) (len : Nat),
      nlInsert h s len l =
        ((if strncmpEq s nd.mem len then .old_string else .collision), l) := by
  intro l
  induction l with
  | nil => intro hf; exact absurd hf (by rw [find_node_nil]; simp)
  | cons n ns ih =>
    intro hf s len
    rw [find_node_cons] at hf
    rw [nlInsert_cons]
    by_cases h1 : n.hash < h
    · rw [if_pos h1] at hf
      rw [if_pos h1, ih hf s len]
    · rw [if_neg h1] at hf
      rw [if_neg h1]
      by_cases h2 : n.hash = h
      · rw [if_pos h2] at hf
        injection hf with hf
        subst hf
        rw [if_pos h2]
      · rw [if_neg h2] at hf
        exact absurd hf (by simp)

theorem nlInsert_fresh {h : Nat} :
    ∀ {l : List Node}, find_node h l = none → ∀ (s : List Nat) (len : Nat),
      nlInsert h s len l = (.new_string, rehashSplice (mkNode s len h) l) := by
  intro l
  induction l with
  | nil => intro _ s len; rfl
  | cons n ns ih =>
    intro hf s len
    rw [find_node_cons] at hf
    by_cases h1 : n.hash < h
    · rw [if_pos h1] at hf
      rw [nlInsert_cons, if_pos h1, ih hf s len, rehashSplice_cons,
          if_pos (show n.hash < (mkNode s len h).hash from h1)]
    · rw [if_neg h1] at hf
      by_cases h2 : n.hash = h
      · rw [if_pos h2] at hf
        exact absurd hf (by simp)
      · rw [if_neg h2] at hf
        rw [nlInsert_cons, if_neg h1, if_neg h2, rehashSplice_cons,
            if_neg (show ¬ n.hash < (mkNode s len h).hash from h1),
            if_neg (show ¬ n.hash = (mkNode s len h).hash from h2)]

theorem nlInsertPrefixCore_found {h : Nat} {nd : Node} (pn : Node) :
    ∀ {l : List Node}, find_node h l = some nd → ∀ (s : List Nat) (len : Nat),
      nlInsertPrefixCore pn h s len l =
        ((if strequal pn.mem s len nd.mem then .old_string else .collision), l) := by
  intro l
  induction l with
  | nil => intro hf; exact absurd hf (by rw [find_node_nil]; simp)
  | cons n ns ih =>
    intro hf s len
    rw [find_node_cons] at hf
    rw [nlInsertPrefixCore_cons]
    by_cases h1 : n.hash < h
    · rw [if_pos h1] at hf
      rw [if_pos h1, ih hf s len]
    · rw [if_neg h1] at hf
      rw [if_neg h1]
      by_cases h2 : n.hash = h
      · rw [if_pos h2] at hf
        injection hf with hf
        subst hf
        rw [if_pos h2]
      · rw [if_neg h2] at hf
        exact absurd hf (by simp)

theorem nlInsertPrefixCore_fresh {h : Nat} (pn : Node) :
    ∀ {l : List Node}, find_node h l = none → ∀ (s : List Nat) (len : Nat),
      nlInsertPrefixCore pn h s len l =
        (.new_string, rehashSplice (mkNodePrefix pn.mem pn.length s len h) l) := by
  intro l
  induction l with
  | nil => intro _ s len; rfl
  | cons n ns ih =>
    intro hf s len
    rw [find_node_cons] at hf
    by_cases h1 : n.hash < h
    · rw [if_pos h1] at hf
      rw [nlInsertPrefixCore_cons, if_pos h1, ih hf s len, rehashSplice_cons,
          if_pos (show n.hash < (mkNodePrefix pn.mem pn.length s len h).hash from h1)]
    · rw [if_neg h1] at hf
      by_cases h2 : n.hash = h
      · rw [if_pos h2] at hf
        exact absurd hf (by simp)
      · rw [if_neg h2] at hf
        rw [nlInsertPrefixCore_cons, if_neg h1, if_neg h2, rehashSplice_cons,
            if_neg (show ¬ n.hash < (mkNodePrefix pn.mem pn.length s len h).hash from h1),
            if_neg (show ¬ n.hash = (mkNodePrefix pn.mem pn.length s len h).hash from h2)]

theorem rehashSplice_mem {x : Node} :
    ∀ {l : List Node}, (∀ nd ∈ l, nd.hash ≠ x.hash) →
      ∀ y, (y ∈ rehashSplice x l ↔ y = x ∨ y ∈ l) := by
  intro l
  induction l with
  | nil => intro _ y; simp [rehashSplice]
  | cons n ns ih =>
    intro hfr y
    have hn : n.hash ≠ x.hash := hfr n (List.mem_cons_self n ns)
    have hfr' : ∀ nd ∈ ns, nd.hash ≠ x.hash := fun nd hm => hfr nd (List.mem_cons_of_mem n hm)
    rw [rehashSplice_cons]
    by_cases h1 : n.hash < x.hash
    · rw [if_pos h1]
      simp only [List.mem_cons]
      rw [ih hfr' y]
      tauto
    · rw [if_neg h1, if_neg hn]
      simp only [List.mem_cons]

theorem rehashSplice_sorted {x : Node} :
    ∀ {l : List Node}, SortedBucket l → (∀ nd ∈ l, nd.hash ≠ x.hash) →
      SortedBucket (rehashSplice x l) := by
  intro l
  induction l with
  | nil => intro _ _; simp [rehashSplice, SortedBucket]
  | cons n ns ih =>
    intro hs hfr
    rw [SortedBucket, List.pairwise_cons] at hs
    have hn : n.hash ≠ x.hash := hfr n (List.mem_cons_self n ns)
    have hfr' : ∀ nd ∈ ns, nd.hash ≠ x.hash := fun nd hm => hfr nd (List.mem_cons_of_mem n hm)
    rw [rehashSplice_cons]
    by_cases h1 : n.hash < x.hash
    · rw [if_pos h1, SortedBucket, List.pairwise_cons]
      constructor
      · intro y hy
        rcases (rehashSplice_mem hfr' y).mp hy with rfl | hy'
        · exact h1
        · exact hs.1 y hy'
      · exact ih hs.2 hfr'
    · have h2 : x.hash < n.hash := by omega
      rw [if_neg h1, if_neg hn, SortedBucket, List.pairwise_cons]
      constructor
      · intro y hy
        rcases List.mem_cons.mp hy with rfl | hy'
        · exact h2
        · exact Nat.lt_trans h2 (hs.1 y hy')
      · rw [List.pairwise_cons]
        exact hs

theorem DbOk.buckets_length {db : map_database} (h : DbOk db) :
    db.buckets_.length = db.no_buckets_ := h.1

theorem DbOk.pos {db : map_database} (h : DbOk db) : 0 < db.no_buckets_ := h.2.1

theorem DbOk.sorted {db : map_database} (hok : DbOk db) (i : Nat) (hi : i < db.buckets_.length) :
    SortedBucket (db.buckets_.getD i []) := (hok.2.2 i hi).1

theorem DbOk.residue {db : map_database} (hok : DbOk db) (i : Nat) (hi : i < db.buckets_.length)
    {nd : Node} (hm : nd ∈ db.buckets_.getD i []) : nd.hash % db.no_buckets_ = i :=
  (hok.2.2 i hi).2 nd hm

theorem sorted_bucketOf {db : map_database} (hok : DbOk db) (h : Nat) :
    SortedBucket (bucketOf db h) :=
  hok.sorted (h % db.no_buckets_)
    (by rw [hok.buckets_length]; exact Nat.mod_lt _ hok.pos)

theorem mem_bucketOf_residue {db : map_database} (hok : DbOk db) {h : Nat} {nd : Node}
    (hm : nd ∈ bucketOf db h) : nd.hash % db.no_buckets_ = h % db.no_buckets_ :=
  hok.residue (h % db.no_buckets_)
    (by rw [hok.buckets_length]; exact Nat.mod_lt _ hok.pos) hm

theorem storedN_of_mem_bucketOf {db : map_database} (hok : DbOk db) {h : Nat} {nd : Node}
    (hm : nd ∈ bucketOf db h) : StoredN db nd := by
  have hres := mem_bucketOf_residue hok hm
  rw [StoredN, bucketOf, hres]
  exact hm

theorem hasHash_iff {db : map_database} (hok : DbOk db) (h : Nat) :
    hasHash db h ↔ ∃ nd, StoredN db nd ∧ nd.hash = h := by
  constructor
  · rintro ⟨nd, hm, hh⟩
    exact ⟨nd, storedN_of_mem_bucketOf hok hm, hh⟩
  · rintro ⟨nd, hst, hh⟩
    refine ⟨nd, ?_, hh⟩
    rw [StoredN] at hst
    rw [bucketOf] at hst ⊢
    rw [← hh]
    exact hst

theorem find_bucketOf_eq_some {db : map_database} (hok : DbOk db) {nd : Node}
    (hst : StoredN db nd) {h : Nat} (hh : nd.hash = h) :
    find_node h (bucketOf db h) = some nd := by
  subst hh
  exact find_node_of_mem (sorted_bucketOf hok nd.hash) hst rfl

theorem find_bucketOf_eq_none {db : map_database} (hok : DbOk db) {h : Nat}
    (hno : ¬ hasHash db h) : find_node h (bucketOf db h) = none := by
  rw [find_node_eq_none (sorted_bucketOf hok h)]
  intro nd hm heq
  exact hno ⟨nd, hm, heq⟩

theorem mdLookup_eq_some {db : map_database} (hok : DbOk db) {nd : Node}
    (hst : StoredN db nd) : mdLookup db nd.hash = some nd.mem := by
  rw [mdLookup, find_bucketOf_eq_some hok hst rfl, Option.map_some']

theorem mdLookup_eq_none {db : map_database} (hok : DbOk db) {h : Nat}
    (hno : ¬ hasHash db h) : mdLookup db h = none := by
  rw [mdLookup, find_bucketOf_eq_none hok hno, Option.map_none']

theorem sortedBucket_mem_eq :
    ∀ {l : List Node}, SortedBucket l → ∀ {a b : Node}, a ∈ l → b ∈ l →
      a.hash = b.hash → a = b := by
  intro l
  induction l with
  | nil => intro _ a b ha; exact absurd ha (by simp)
  | cons n ns ih =>
    intro hs a b ha hb hh
    rw [SortedBucket, List.pairwise_cons] at hs
    rcases List.mem_cons.mp ha with rfl | ha' <;> rcases List.mem_cons.mp hb with rfl | hb'
    · rfl
    · exact absurd (hs.1 b hb') (by omega)
    · exact absurd (hs.1 a ha') (by omega)
    · exact ih hs.2 ha' hb' hh

theorem storedN_unique {db : map_database} (hok : DbOk db) {a b : Node}
    (ha : StoredN db a) (hb : StoredN db b) (hh : a.hash = b.hash) : a = b := by
  rw [StoredN] at ha hb
  rw [bucketOf] at ha hb
  rw [hh] at ha
  exact sortedBucket_mem_eq (sorted_bucketOf hok b.hash) ha hb hh

theorem mem_allNodes_iff {db : map_database} (hok : DbOk db) (y : Node) :
    y ∈ allNodes db ↔ StoredN db y := by
  rw [allNodes, mem_flatten_iff_getD]
  constructor
  · rintro ⟨j, hj, hy⟩
    have hres := hok.residue j hj hy
    rw [StoredN, bucketOf, hres]
    exact hy
  · intro hst
    refine ⟨y.hash % db.no_buckets_, ?_, hst⟩
    rw [hok.buckets_length]
    exact Nat.mod_lt _ hok.pos

theorem allNodes_pairwise_ne {db : map_database} (hok : DbOk db) :
    (allNodes db).Pairwise (fun a b => a.hash ≠ b.hash) := by
  rw [allNodes, List.pairwise_flatten]
  constructor
  · intro l hl
    obtain ⟨i, hi, rfl⟩ := List.mem_iff_getElem.mp hl
    have hs := hok.sorted i hi
    have hgd : db.buckets_.getD i [] = db.buckets_[i] := by
      simp [List.getD_eq_getElem?_getD, List.getElem?_eq_getElem hi]
    rw [SortedBucket, hgd] at hs
    exact hs.imp (fun hlt => Nat.ne_of_lt hlt)
  · rw [List.pairwise_iff_getElem]
    intro i j hi hj hij x hx y hy
    have hgi : db.buckets_.getD i [] = db.buckets_[i] := by
      simp [List.getD_eq_getElem?_getD, List.getElem?_eq_getElem hi]
    have hgj : db.buckets_.getD j [] = db.buckets_[j] := by
      simp [List.getD_eq_getElem?_getD, List.getElem?_eq_getElem hj]
    have hxr := hok.residue i hi (hgi ▸ hx)
    have hyr := hok.residue j hj (hgj ▸ hy)
    intro heq
    rw [heq] at hxr
    omega

theorem allNodes_nodup {db : map_database} (hok : DbOk db) : (allNodes db).Nodup :=
  (allNodes_pairwise_ne hok).imp (fun h heq => h (congrArg Node.hash heq))

theorem rehash_fold_spec (N : Nat) (hN : 0 < N) :
    ∀ (ns : List Node) (bkts : List (List Node)),
      bkts.length = N →
      (∀ j < N, SortedBucket (bkts.getD j []) ∧ ∀ nd ∈ bkts.getD j [], nd.hash % N = j) →
      ns.Pairwise (fun a b => a.hash ≠ b.hash) →
      (∀ x ∈ ns, ∀ j < N, ∀ nd ∈ bkts.getD j [], nd.hash ≠ x.hash) →
      (ns.foldl (rehashStep N) bkts).length = N ∧
        (∀ j < N, SortedBucket ((ns.foldl (rehashStep N) bkts).getD j []) ∧
          ∀ nd ∈ (ns.foldl (rehashStep N) bkts).getD j [], nd.hash % N = j) ∧
        (∀ y, (∃ j, j < N ∧ y ∈ (ns.foldl (rehashStep N) bkts).getD j []) ↔
          ((∃ j, j < N ∧ y ∈ bkts.getD j []) ∨ y ∈ ns)) := by
  intro ns
  induction ns with
  | nil =>
    intro bkts hlen hwf _ _
    refine ⟨hlen, hwf, ?_⟩
    intro y
    simp
  | cons x xs ih =>
    intro bkts hlen hwf hnd hfr
    rw [List.pairwise_cons] at hnd
    have hidx : x.hash % N < N := Nat.mod_lt _ hN
    have hidxl : x.hash % N < bkts.length := by rw [hlen]; exact hidx
    have hfx : ∀ nd ∈ bkts.getD (x.hash % N) [], nd.hash ≠ x.hash :=
      fun nd hm => hfr x (List.mem_cons_self x xs) (x.hash % N) hidx nd hm
    have hlen' : (rehashStep N bkts x).length = N := by
      rw [rehashStep, List.length_set, hlen]
    have hmem' : ∀ j, j < N → ∀ y, y ∈ (rehashStep N bkts x).getD j [] ↔
        (y = x ∧ j = x.hash % N) ∨ y ∈ bkts.getD j [] := by
      intro j hj y
      by_cases hji : j = x.hash % N
      · subst hji
        rw [rehashStep, getD_set_self _ _ _ _ hidxl, rehashSplice_mem hfx y]
        tauto
      · rw [rehashStep, getD_set_ne _ _ _ _ _ (fun hh => hji hh.symm)]
        tauto
    have hwf' : ∀ j < N, SortedBucket ((rehashStep N bkts x).getD j []) ∧
        ∀ nd ∈ (rehashStep N bkts x).getD j [], nd.hash % N = j := by
      intro j hj
      by_cases hji : j = x.hash % N
      · subst hji
        rw [rehashStep, getD_set_self _ _ _ _ hidxl]
        constructor
        · exact rehashSplice_sorted (hwf _ hidx).1 hfx
        · intro nd hm
          rcases (rehashSplice_mem hfx nd).mp hm with rfl | hm'
          · rfl
          · exact (hwf _ hidx).2 nd hm'
      · rw [rehashStep, getD_set_ne _ _ _ _ _ (fun hh => hji hh.symm)]
        exact hwf j hj
    have hfr' : ∀ z ∈ xs, ∀ j < N, ∀ nd ∈ (rehashStep N bkts x).getD j [], nd.hash ≠ z.hash := by
      intro z hz j hj nd hm
      rcases (hmem' j hj nd).mp hm with ⟨rfl, _⟩ | hm'
      · exact hnd.1 z hz
      · exact hfr z (List.mem_cons_of_mem x hz) j hj nd hm'
    have hres := ih (rehashStep N bkts x) hlen' hwf' hnd.2 hfr'
    rw [List.foldl_cons]
    refine ⟨hres.1, hres.2.1, ?_⟩
    intro y
    rw [hres.2.2 y]
    constructor
    · rintro (⟨j, hj, hy⟩ | hy)
      · rcases (hmem' j hj y).mp hy with ⟨hyx, _⟩ | hy'
        · exact Or.inr (by rw [hyx]; exact List.mem_cons_self x xs)
        · exact Or.inl ⟨j, hj, hy'⟩
      · exact Or.inr (List.mem_cons_of_mem x hy)
    · rintro (⟨j, hj, hy⟩ | hy)
      · exact Or.inl ⟨j, hj, (hmem' j hj y).mpr (Or.inr hy)⟩
      · rcases List.mem_cons.mp hy with rfl | hy'
        · exact Or.inl ⟨y.hash % N, Nat.mod_lt _ hN,
            (hmem' _ (Nat.mod_lt _ hN) y).mpr (Or.inl ⟨rfl, rfl⟩)⟩
        · exact Or.inr hy'

theorem mdRehash_buckets (db : map_database) :
    (mdRehash db).buckets_ =
      (allNodes db).foldl (rehashStep (2 * db.no_buckets_))
        (List.replicate (2 * db.no_buckets_) []) := by
  show db.buckets_.foldl (rehashInto (2 * db.no_buckets_))
      (List.replicate (2 * db.no_buckets_) []) = _
  rw [allNodes, List.foldl_flatten]
  rfl

theorem mdRehash_no_buckets (db : map_database) :
    (mdRehash db).no_buckets_ = 2 * db.no_buckets_ := rfl

theorem mdRehash_no_items (db : map_database) :
    (mdRehash db).no_items_ = db.no_items_ := rfl

theorem mdRehash_mlf (db : map_database) :
    (mdRehash db).max_load_factor_ = db.max_load_factor_ := rfl

theorem mdRehash_next_resize (db : map_database) :
    (mdRehash db).next_resize_ = nextResizeOf (2 * db.no_buckets_) db.max_load_factor_ := rfl

theorem mdRehash_ok_stored {db : map_database} (hok : DbOk db) :
    DbOk (mdRehash db) ∧ (∀ y, StoredN (mdRehash db) y ↔ StoredN db y) := by
  have hN : 0 < 2 * db.no_buckets_ := by have := hok.pos; omega
  have hinit_wf : ∀ j < 2 * db.no_buckets_,
      SortedBucket ((List.replicate (2 * db.no_buckets_) ([] : List Node)).getD j []) ∧
        ∀ nd ∈ (List.replicate (2 * db.no_buckets_) ([] : List Node)).getD j [],
          nd.hash % (2 * db.no_buckets_) = j := by
    intro j hj
    rw [getD_replicate _ _ _ _ hj]
    exact ⟨List.Pairwise.nil, fun nd hm => absurd hm (by simp)⟩
  have hfr : ∀ x ∈ allNodes db, ∀ j < 2 * db.no_buckets_,
      ∀ nd ∈ (List.replicate (2 * db.no_buckets_) ([] : List Node)).getD j [],
        nd.hash ≠ x.hash := by
    intro x _ j hj nd hm
    rw [getD_replicate _ _ _ _ hj] at hm
    exact absurd hm (by simp)
  have hspec := rehash_fold_spec (2 * db.no_buckets_) hN (allNodes db)
    (List.replicate (2 * db.no_buckets_) []) (by simp) hinit_wf
    (allNodes_pairwise_ne hok) hfr
  constructor
  · refine ⟨?_, hN, ?_⟩
    · rw [mdRehash_buckets]
      exact hspec.1
    · intro i hi
      rw [mdRehash_buckets] at hi ⊢
      rw [hspec.1] at hi
      exact hspec.2.1 i hi
  · intro y
    constructor
    · intro hst
      rw [StoredN, bucketOf, mdRehash_buckets, mdRehash_no_buckets] at hst
      have hyN : y.hash % (2 * db.no_buckets_) < 2 * db.no_buckets_ := Nat.mod_lt _ hN
      rcases (hspec.2.2 y).mp ⟨_, hyN, hst⟩ with ⟨j, hj, hy⟩ | hy
      · rw [getD_replicate _ _ _ _ hj] at hy
        exact absurd hy (by simp)
      · exact (mem_allNodes_iff hok y).mp hy
    · intro hst
      rcases (hspec.2.2 y).mpr (Or.inr ((mem_allNodes_iff hok y).mpr hst)) with ⟨j, hj, hy⟩
      have hres := (hspec.2.1 j hj).2 y hy
      rw [StoredN, bucketOf, mdRehash_buckets, mdRehash_no_buckets, hres]
      exact hy

theorem mdGrow_ok {db : map_database} (hok : DbOk db) : DbOk (mdGrow db) := by
  rw [mdGrow]
  split
  · exact (mdRehash_ok_stored hok).1
  · exact hok

theorem mdGrow_stored {db : map_database} (hok : DbOk db) (y : Node) :
    StoredN (mdGrow db) y ↔ StoredN db y := by
  rw [mdGrow]
  split
  · exact (mdRehash_ok_stored hok).2 y
  · exact Iff.rfl

theorem mdGrow_no_items (db : map_database) : (mdGrow db).no_items_ = db.no_items_ := by
  rw [mdGrow]
  split <;> rfl

theorem mdGrow_mlf (db : map_database) :
    (mdGrow db).max_load_factor_ = db.max_load_factor_ := by
  rw [mdGrow]
  split <;> rfl

theorem mdGrow_hasHash {db : map_database} (hok : DbOk db) (h : Nat) :
    hasHash (mdGrow db) h ↔ hasHash db h := by
  rw [hasHash_iff (mdGrow_ok hok), hasHash_iff hok]
  constructor <;> rintro ⟨nd, hst, hh⟩
  · exact ⟨nd, (mdGrow_stored hok nd).mp hst, hh⟩
  · exact ⟨nd, (mdGrow_stored hok nd).mpr hst, hh⟩

theorem mdInsert_eq (db : map_database) (h : Nat) (s : List Nat) (len : Nat) :
    mdInsert db h s len =
      ((nlInsert h s len (bucketOf (mdGrow db) h)).1,
       ⟨(mdGrow db).buckets_.set (h % (mdGrow db).no_buckets_)
          (nlInsert h s len (bucketOf (mdGrow db) h)).2,
        if (nlInsert h s len (bucketOf (mdGrow db) h)).1 = .new_string then
          (mdGrow db).no_items_ + 1
        else (mdGrow db).no_items_,
        (mdGrow db).no_buckets_, (mdGrow db).max_load_factor_,
        (mdGrow db).next_resize_⟩) := rfl

theorem mdInsert_found {db : map_database} (hok : DbOk db) {h : Nat} {nd : Node}
    (hfind : find_node h (bucketOf (mdGrow db) h) = some nd) (s : List Nat) (len : Nat) :
    mdInsert db h s len =
      ((if strncmpEq s nd.mem len then .old_string else .collision), mdGrow db) := by
  have hg := mdGrow_ok hok
  have hlt : h % (mdGrow db).no_buckets_ < (mdGrow db).buckets_.length := by
    rw [hg.buckets_length]
    exact Nat.mod_lt _ hg.pos
  rw [mdInsert_eq, nlInsert_found hfind s len]
  dsimp only
  have hset : (mdGrow db).buckets_.set (h % (mdGrow db).no_buckets_)
      (bucketOf (mdGrow db) h) = (mdGrow db).buckets_ := by
    rw [bucketOf]
    exact set_getD_self _ _ _ hlt
  have hitems : (if (if strncmpEq s nd.mem len then insert_status.old_string
      else insert_status.collision) = insert_status.new_string then
      (mdGrow db).no_items_ + 1 else (mdGrow db).no_items_) = (mdGrow db).no_items_ := by
    by_cases hc : strncmpEq s nd.mem len <;> simp [hc]
  rw [hset, hitems]

theorem mdInsert_fresh_eq {db : map_database} {h : Nat}
    (hfind : find_node h (bucketOf (mdGrow db) h) = none) (s : List Nat) (len : Nat) :
    mdInsert db h s len = (.new_string, spliceDb (mdGrow db) h (mkNode s len h)) := by
  rw [mdInsert_eq, nlInsert_fresh hfind s len]
  dsimp only
  rw [spliceDb]
  simp

theorem spliceDb_props {g : map_database} (hgok : DbOk g) {h : Nat} {x : Node}
    (hx : x.hash = h) (hno : ¬ hasHash g h) :
    DbOk (spliceDb g h x) ∧ (∀ y, StoredN (spliceDb g h x) y ↔ (y = x ∨ StoredN g y)) := by
  have hidx : h % g.no_buckets_ < g.no_buckets_ := Nat.mod_lt _ hgok.pos
  have hidxl : h % g.no_buckets_ < g.buckets_.length := by
    rw [hgok.buckets_length]
    exact hidx
  have hfr : ∀ nd ∈ bucketOf g h, nd.hash ≠ x.hash := by
    intro nd hm heq
    exact hno ⟨nd, hm, heq.trans hx⟩
  have hgetD : ∀ j, (spliceDb g h x).buckets_.getD j [] =
      if j = h % g.no_buckets_ then rehashSplice x (bucketOf g h) else g.buckets_.getD j [] := by
    intro j
    by_cases hji : j = h % g.no_buckets_
    · rw [if_pos hji, hji, spliceDb]
      exact getD_set_self _ _ _ _ hidxl
    · rw [if_neg hji, spliceDb]
      exact getD_set_ne _ _ _ _ _ (fun hh => hji hh.symm)
  have hlen : (spliceDb g h x).buckets_.length = g.buckets_.length :=
    List.length_set _ _ _
  constructor
  · refine ⟨?_, hgok.pos, ?_⟩
    · rw [hlen]
      exact hgok.buckets_length
    · intro i hi
      rw [hlen] at hi
      rw [hgetD i]
      by_cases hji : i = h % g.no_buckets_
      · rw [if_pos hji]
        refine ⟨rehashSplice_sorted (sorted_bucketOf hgok h) hfr, ?_⟩
        intro nd hm
        show nd.hash % g.no_buckets_ = i
        rcases (rehashSplice_mem hfr nd).mp hm with hndx | hm'
        · rw [hndx, hx, hji]
        · rw [mem_bucketOf_residue hgok hm', hji]
      · rw [if_neg hji]
        exact ⟨hgok.sorted i hi, fun nd hm => hgok.residue i hi hm⟩
  · intro y
    have hiff : StoredN (spliceDb g h x) y ↔
        y ∈ (spliceDb g h x).buckets_.getD (y.hash % g.no_buckets_) [] := Iff.rfl
    rw [hiff, hgetD (y.hash % g.no_buckets_)]
    by_cases hji : y.hash % g.no_buckets_ = h % g.no_buckets_
    · rw [if_pos hji, rehashSplice_mem hfr y]
      have hsg : StoredN g y ↔ y ∈ bucketOf g h := by
        rw [StoredN, bucketOf, bucketOf, hji]
      rw [hsg]
    · rw [if_neg hji]
      constructor
      · intro hm
        exact Or.inr hm
      · rintro (rfl | hm)
        · exact absurd (by rw [hx]) hji
        · exact hm

theorem mdInsertPrefix_eq (db : map_database) (h p : Nat) (s : List Nat) (len : Nat) :
    mdInsertPrefix db h p s len =
      (nlInsertPre (bucketOf (mdGrow db) p) p h s len (bucketOf (mdGrow db) h)).map
        (fun r => (r.1,
          ⟨(mdGrow db).buckets_.set (h % (mdGrow db).no_buckets_) r.2,
           if r.1 = .new_string then (mdGrow db).no_items_ + 1 else (mdGrow db).no_items_,
           (mdGrow db).no_buckets_, (mdGrow db).max_load_factor_,
           (mdGrow db).next_resize_⟩)) := rfl

theorem mdInsertPrefix_none {db : map_database} {h p : Nat} {s : List Nat} {len : Nat}
    (hpf : find_node p (bucketOf (mdGrow db) p) = none) :
    mdInsertPrefix db h p s len = none := by
  rw [mdInsertPrefix_eq, nlInsertPre, hpf]
  rfl

theorem mdInsertPrefix_found {db : map_database} (hok : DbOk db) {h p : Nat} {pn nd : Node}
    (hpf : find_node p (bucketOf (mdGrow db) p) = some pn)
    (hfind : find_node h (bucketOf (mdGrow db) h) = some nd) (s : List Nat) (len : Nat) :
    mdInsertPrefix db h p s len =
      some ((if strequal pn.mem s len nd.mem then .old_string else .collision), mdGrow db) := by
  have hg := mdGrow_ok hok
  have hlt : h % (mdGrow db).no_buckets_ < (mdGrow db).buckets_.length := by
    rw [hg.buckets_length]
    exact Nat.mod_lt _ hg.pos
  rw [mdInsertPrefix_eq, nlInsertPre, hpf, Option.map_some', Option.map_some',
      nlInsertPrefixCore_found pn hfind s len]
  dsimp only
  have hset : (mdGrow db).buckets_.set (h % (mdGrow db).no_buckets_)
      (bucketOf (mdGrow db) h) = (mdGrow db).buckets_ := by
    rw [bucketOf]
    exact set_getD_self _ _ _ hlt
  have hitems : (if (if strequal pn.mem s len nd.mem then insert_status.old_string
      else insert_status.collision) = insert_status.new_string then
      (mdGrow db).no_items_ + 1 else (mdGrow db).no_items_) = (mdGrow db).no_items_ := by
    by_cases hc : strequal pn.mem s len nd.mem <;> simp [hc]
  rw [hset, hitems]

theorem mdInsertPrefix_fresh_eq {db : map_database} {h p : Nat} {pn : Node}
    (hpf : find_node p (bucketOf (mdGrow db) p) = some pn)
    (hfind : find_node h (bucketOf (mdGrow db) h) = none) (s : List Nat) (len : Nat) :
    mdInsertPrefix db h p s len =
      some (.new_string, spliceDb (mdGrow db) h (mkNodePrefix pn.mem pn.length s len h)) := by
  rw [mdInsertPrefix_eq, nlInsertPre, hpf, Option.map_some', Option.map_some',
      nlInsertPrefixCore_fresh pn hfind s len]
  dsimp only
  rw [spliceDb]
  simp

theorem mdLookup_congr {d1 d2 : map_database} (h1 : DbOk d1) (h2 : DbOk d2)
    (hs : ∀ y, StoredN d1 y ↔ StoredN d2 y) (h : Nat) : mdLookup d1 h = mdLookup d2 h := by
  by_cases hh : hasHash d2 h
  · obtain ⟨nd, hst, hhash⟩ := (hasHash_iff h2 h).mp hh
    rw [← hhash, mdLookup_eq_some h2 hst, mdLookup_eq_some h1 ((hs nd).mpr hst)]
  · have hh1 : ¬ hasHash d1 h := by
      intro hcon
      obtain ⟨nd, hst, hhash⟩ := (hasHash_iff h1 h).mp hcon
      exact hh ((hasHash_iff h2 h).mpr ⟨nd, (hs nd).mp hst, hhash⟩)
    rw [mdLookup_eq_none h1 hh1, mdLookup_eq_none h2 hh]

theorem mdInsert_fresh_props {db : map_database} (hok : DbOk db) {h : Nat}
    (hno : ¬ hasHash db h) (s : List Nat) (len : Nat) :
    (mdInsert db h s len).1 = .new_string ∧
      DbOk (mdInsert db h s len).2 ∧
      (mdInsert db h s len).2.no_items_ = db.no_items_ + 1 ∧
      (∀ y, StoredN (mdInsert db h s len).2 y ↔ (y = mkNode s len h ∨ StoredN db y)) := by
  have hg := mdGrow_ok hok
  have hno' : ¬ hasHash (mdGrow db) h := fun hc => hno ((mdGrow_hasHash hok h).mp hc)
  have hfind := find_bucketOf_eq_none hg hno'
  have hsp := spliceDb_props hg (mkNode_hash s len h) hno'
  rw [mdInsert_fresh_eq hfind s len]
  dsimp only
  refine ⟨rfl, hsp.1, ?_, ?_⟩
  · show (mdGrow db).no_items_ + 1 = db.no_items_ + 1
    rw [mdGrow_no_items]
  · intro y
    rw [hsp.2 y, mdGrow_stored hok y]

theorem mdInsertPrefix_fresh_props {db : map_database} (hok : DbOk db) {h p : Nat} {pn : Node}
    (hpf : find_node p (bucketOf (mdGrow db) p) = some pn)
    (hno : ¬ hasHash db h) (s : List Nat) (len : Nat) :
    mdInsertPrefix db h p s len =
        some (.new_string, spliceDb (mdGrow db) h (mkNodePrefix pn.mem pn.length s len h)) ∧
      DbOk (spliceDb (mdGrow db) h (mkNodePrefix pn.mem pn.length s len h)) ∧
      (spliceDb (mdGrow db) h (mkNodePrefix pn.mem pn.length s len h)).no_items_ =
        db.no_items_ + 1 ∧
      (∀ y, StoredN (spliceDb (mdGrow db) h (mkNodePrefix pn.mem pn.length s len h)) y ↔
        (y = mkNodePrefix pn.mem pn.length s len h ∨ StoredN db y)) := by
  have hg := mdGrow_ok hok
  have hno' : ¬ hasHash (mdGrow db) h := fun hc => hno ((mdGrow_hasHash hok h).mp hc)
  have hfind := find_bucketOf_eq_none hg hno'
  have hsp := spliceDb_props hg (mkNodePrefix_hash pn.mem s pn.length len h) hno'
  refine ⟨mdInsertPrefix_fresh_eq hpf hfind s len, hsp.1, ?_, ?_⟩
  · show (mdGrow db).no_items_ + 1 = db.no_items_ + 1
    rw [mdGrow_no_items]
  · intro y
    rw [hsp.2 y, mdGrow_stored hok y]

theorem mdInsert_not_new {db : map_database} (hok : DbOk db) (h : Nat) (s : List Nat)
    (len : Nat) (hne : (mdInsert db h s len).1 ≠ .new_string) :
    (mdInsert db h s len).2 = mdGrow db := by
  cases hf : find_node h (bucketOf (mdGrow db) h) with
  | none => exact absurd (by rw [mdInsert_fresh_eq hf s len]) hne
  | some nd => rw [mdInsert_found hok hf s len]

theorem mdInsertPrefix_not_new {db : map_database} (hok : DbOk db) {h p : Nat} {s : List Nat}
    {len : Nat} {st : insert_status} {db' : map_database}
    (heq : mdInsertPrefix db h p s len = some (st, db')) (hne : st ≠ .new_string) :
    db' = mdGrow db := by
  cases hpf : find_node p (bucketOf (mdGrow db) p) with
  | none => rw [mdInsertPrefix_none hpf] at heq; exact absurd heq (by simp)
  | some pn =>
    cases hf : find_node h (bucketOf (mdGrow db) h) with
    | none =>
      rw [mdInsertPrefix_fresh_eq hpf hf s len] at heq
      injection heq with heq
      exact absurd (congrArg Prod.fst heq).symm hne
    | some nd =>
      rw [mdInsertPrefix_found hok hpf hf s len] at heq
      injection heq with heq
      exact (congrArg Prod.snd heq).symm

theorem mdInsert_mlf (db : map_database) (h : Nat) (s : List Nat) (len : Nat) :
    (mdInsert db h s len).2.max_load_factor_ = db.max_load_factor_ := by
  rw [mdInsert_eq]
  dsimp only
  exact mdGrow_mlf db

theorem mdInsert_no_buckets (db : map_database) (h : Nat) (s : List Nat) (len : Nat) :
    (mdInsert db h s len).2.no_buckets_ = (mdGrow db).no_buckets_ := rfl

theorem mdInsert_next_resize (db : map_database) (h : Nat) (s : List Nat) (len : Nat) :
    (mdInsert db h s len).2.next_resize_ = (mdGrow db).next_resize_ := rfl

theorem mdInsert_no_items_cases (db : map_database) (h : Nat) (s : List Nat) (len : Nat) :
    (mdInsert db h s len).2.no_items_ = (mdGrow db).no_items_ ∨
      (mdInsert db h s len).2.no_items_ = (mdGrow db).no_items_ + 1 := by
  rw [mdInsert_eq]
  dsimp only
  by_cases hc : (nlInsert h s len (bucketOf (mdGrow db) h)).1 = insert_status.new_string
  · rw [if_pos hc]
    exact Or.inr rfl
  · rw [if_neg hc]
    exact Or.inl rfl

theorem mdInsertPrefix_fields {db : map_database} {h p : Nat} {s : List Nat} {len : Nat}
    {st : insert_status} {db' : map_database}
    (heq : mdInsertPrefix db h p s len = some (st, db')) :
    (db'.no_items_ = (mdGrow db).no_items_ ∨ db'.no_items_ = (mdGrow db).no_items_ + 1) ∧
      db'.no_buckets_ = (mdGrow db).no_buckets_ ∧
      db'.max_load_factor_ = db.max_load_factor_ ∧
      db'.next_resize_ = (mdGrow db).next_resize_ := by
  rw [mdInsertPrefix_eq] at heq
  cases ho : nlInsertPre (bucketOf (mdGrow db) p) p h s len (bucketOf (mdGrow db) h) with
  | none => rw [ho] at heq; exact absurd heq (by simp)
  | some r =>
    rw [ho, Option.map_some'] at heq
    injection heq with heq
    have hdb : db' = ⟨(mdGrow db).buckets_.set (h % (mdGrow db).no_buckets_) r.2,
        if r.1 = .new_string then (mdGrow db).no_items_ + 1 else (mdGrow db).no_items_,
        (mdGrow db).no_buckets_, (mdGrow db).max_load_factor_,
        (mdGrow db).next_resize_⟩ := (congrArg Prod.snd heq).symm
    subst hdb
    refine ⟨?_, rfl, mdGrow_mlf db, rfl⟩
    by_cases hc : r.1 = insert_status.new_string
    · rw [if_pos hc]
      exact Or.inr rfl
    · rw [if_neg hc]
      exact Or.inl rfl

theorem nextResizeOf_one (n : Nat) : nextResizeOf n 1 = n := by
  simp [nextResizeOf]

theorem getD_replicate_default {j b : Nat} :
    (List.replicate b ([] : List Node)).getD j [] = [] := by
  by_cases hj : j < b
  · exact getD_replicate _ _ _ _ hj
  · rw [List.getD_eq_getElem?_getD, List.getElem?_eq_none (by simpa using hj)]
    rfl

theorem mkMapDatabase_ok (b : Nat) (f : ℚ) (hb : 0 < b) : DbOk (mkMapDatabase b f) := by
  refine ⟨by simp [mkMapDatabase], hb, ?_⟩
  intro i hi
  have hg : (mkMapDatabase b f).buckets_.getD i [] = [] := getD_replicate_default
  rw [hg]
  exact ⟨List.Pairwise.nil, fun nd hm => absurd hm (by simp)⟩

theorem mkMapDatabase_no_hash (b : Nat) (f : ℚ) (h : Nat) :
    ¬ hasHash (mkMapDatabase b f) h := by
  rintro ⟨nd, hm, _⟩
  have hb : bucketOf (mkMapDatabase b f) h = [] := by
    rw [bucketOf]
    exact getD_replicate_default
  rw [hb] at hm
  exact absurd hm (by simp)

theorem runInserts_nil (db : map_database) : runInserts db [] = db := rfl

theorem runInserts_cons (db : map_database) (q : Nat × List Nat) (qs : List (Nat × List Nat)) :
    runInserts db (q :: qs) = runInserts (mdInsert db q.1 q.2 q.2.length).2 qs := by
  rw [runInserts, runInserts, List.foldl_cons]

theorem fresh_after_insert {db : map_database} (hok : DbOk db) {q : Nat × List Nat}
    {qs : List (Nat × List Nat)} (hfq : ¬ hasHash db q.1)
    (hfresh : ∀ r ∈ qs, ¬ hasHash db r.1) (hnotin : q.1 ∉ qs.map Prod.fst) :
    ∀ r ∈ qs, ¬ hasHash (mdInsert db q.1 q.2 q.2.length).2 r.1 := by
  intro r hr hc
  have hq := mdInsert_fresh_props hok hfq q.2 q.2.length
  rw [hasHash_iff hq.2.1] at hc
  obtain ⟨nd, hst, hh⟩ := hc
  rcases (hq.2.2.2 nd).mp hst with hnd | hst'
  · apply hnotin
    rw [show q.1 = r.1 from by rw [← hh, hnd, mkNode_hash]]
    exact List.mem_map_of_mem Prod.fst hr
  · exact hfresh r hr ((hasHash_iff hok r.1).mpr ⟨nd, hst', hh⟩)

theorem runInserts_spec :
    ∀ (ps : List (Nat × List Nat)) (db : map_database), DbOk db →
      (∀ q ∈ ps, ¬ hasHash db q.1) →
      (ps.map Prod.fst).Nodup →
      DbOk (runInserts db ps) ∧
        (∀ y, StoredN (runInserts db ps) y ↔
          (y ∈ ps.map (fun q => mkNode q.2 q.2.length q.1) ∨ StoredN db y)) ∧
        (runInserts db ps).no_items_ = db.no_items_ + ps.length := by
  intro ps
  induction ps with
  | nil =>
    intro db hok _ _
    exact ⟨hok, fun y => by simp [runInserts_nil], by simp [runInserts_nil]⟩
  | cons q qs ih =>
    intro db hok hfresh hnd
    rw [List.map_cons, List.nodup_cons] at hnd
    have hfq : ¬ hasHash db q.1 := hfresh q (List.mem_cons_self q qs)
    have hq := mdInsert_fresh_props hok hfq q.2 q.2.length
    have hfresh1 := fresh_after_insert hok hfq
      (fun r hr => hfresh r (List.mem_cons_of_mem q hr)) hnd.1
    have hrec := ih (mdInsert db q.1 q.2 q.2.length).2 hq.2.1 hfresh1 hnd.2
    rw [runInserts_cons]
    refine ⟨hrec.1, ?_, ?_⟩
    · intro y
      rw [hrec.2.1 y, hq.2.2.2 y, List.map_cons, List.mem_cons]
      tauto
    · rw [hrec.2.2, hq.2.2.1, List.length_cons]
      omega

theorem runInserts_growth :
    ∀ (ps : List (Nat × List Nat)) (db : map_database), DbOk db →
      (∀ q ∈ ps, ¬ hasHash db q.1) →
      (ps.map Prod.fst).Nodup →
      db.max_load_factor_ = 1 →
      db.next_resize_ = db.no_buckets_ →
      db.no_items_ < db.no_buckets_ →
      (runInserts db ps).no_items_ = db.no_items_ + ps.length ∧
        (runInserts db ps).no_items_ < (runInserts db ps).no_buckets_ ∧
        ∃ t, (runInserts db ps).no_buckets_ = db.no_buckets_ * 2 ^ t := by
  intro ps
  induction ps with
  | nil =>
    intro db _ _ _ _ _ hlt
    exact ⟨by simp [runInserts_nil], by simpa [runInserts_nil] using hlt,
      ⟨0, by simp [runInserts_nil]⟩⟩
  | cons q qs ih =>
    intro db hok hfresh hnd hmlf hnr hlt
    rw [List.map_cons, List.nodup_cons] at hnd
    have hfq : ¬ hasHash db q.1 := hfresh q (List.mem_cons_self q qs)
    have hq := mdInsert_fresh_props hok hfq q.2 q.2.length
    have hfresh1 := fresh_after_insert hok hfq
      (fun r hr => hfresh r (List.mem_cons_of_mem q hr)) hnd.1
    have hitems1 : (mdInsert db q.1 q.2 q.2.length).2.no_items_ = db.no_items_ + 1 := hq.2.2.1
    have hmlf1 : (mdInsert db q.1 q.2 q.2.length).2.max_load_factor_ = 1 := by
      rw [mdInsert_mlf, hmlf]
    by_cases hguard : db.no_items_ + 1 ≥ db.next_resize_
    · have hgrow : mdGrow db = mdRehash db := by rw [mdGrow, if_pos hguard]
      have hnb1 : (mdInsert db q.1 q.2 q.2.length).2.no_buckets_ = 2 * db.no_buckets_ := by
        rw [mdInsert_no_buckets, hgrow, mdRehash_no_buckets]
      have hnr1 : (mdInsert db q.1 q.2 q.2.length).2.next_resize_ =
          (mdInsert db q.1 q.2 q.2.length).2.no_buckets_ := by
        rw [mdInsert_next_resize, hgrow, mdRehash_next_resize, hmlf, nextResizeOf_one, hnb1]
      have hlt1 : (mdInsert db q.1 q.2 q.2.length).2.no_items_ <
          (mdInsert db q.1 q.2 q.2.length).2.no_buckets_ := by
        rw [hitems1, hnb1]
        have := hok.pos
        omega
      have hrec := ih (mdInsert db q.1 q.2 q.2.length).2 hq.2.1 hfresh1 hnd.2 hmlf1 hnr1 hlt1
      rw [runInserts_cons]
      refine ⟨?_, hrec.2.1, ?_⟩
      · rw [hrec.1, hitems1, List.length_cons]
        omega
      · obtain ⟨t, ht⟩ := hrec.2.2
        refine ⟨t + 1, ?_⟩
        rw [ht, hnb1]
        ring
    · have hgrow : mdGrow db = db := by rw [mdGrow, if_neg hguard]
      have hnb1 : (mdInsert db q.1 q.2 q.2.length).2.no_buckets_ = db.no_buckets_ := by
        rw [mdInsert_no_buckets, hgrow]
      have hnr1 : (mdInsert db q.1 q.2 q.2.length).2.next_resize_ =
          (mdInsert db q.1 q.2 q.2.length).2.no_buckets_ := by
        rw [mdInsert_next_resize, hgrow, hnr, hnb1]
      have hlt1 : (mdInsert db q.1 q.2 q.2.length).2.no_items_ <
          (mdInsert db q.1 q.2 q.2.length).2.no_buckets_ := by
        rw [hitems1, hnb1]
        rw [hnr] at hguard
        omega
      have hrec := ih (mdInsert db q.1 q.2 q.2.length).2 hq.2.1 hfresh1 hnd.2 hmlf1 hnr1 hlt1
      rw [runInserts_cons]
      refine ⟨?_, hrec.2.1, ?_⟩
      · rw [hrec.1, hitems1, List.length_cons]
        omega
      · obtain ⟨t, ht⟩ := hrec.2.2
        refine ⟨t, ?_⟩
        rw [ht, hnb1]

theorem cast_nextResizeOf_le {n : Nat} {f : ℚ} (hpos : 0 < nextResizeOf n f) :
    (nextResizeOf n f : ℚ) ≤ (n : ℚ) * f := by
  rw [nextResizeOf] at hpos ⊢
  have hfl : (0 : ℤ) ≤ ⌊(n : ℚ) * f⌋ := by
    by_contra hneg
    push_neg at hneg
    rw [Int.toNat_of_nonpos (le_of_lt hneg)] at hpos
    exact absurd hpos (by omega)
  have hle : ((⌊(n : ℚ) * f⌋.toNat : ℤ) : ℚ) ≤ (n : ℚ) * f := by
    rw [Int.toNat_of_nonneg hfl]
    exact Int.floor_le _
  exact_mod_cast hle

theorem mdGrow_load {db : map_database} {f : ℚ} {b : Nat}
    (hmlf : db.max_load_factor_ = f)
    (hnr : db.next_resize_ = nextResizeOf db.no_buckets_ f)
    (hload : (db.no_items_ : ℚ) ≤ (db.no_buckets_ : ℚ) * f)
    (hb : b ≤ db.no_buckets_) (hbf : 1 ≤ (b : ℚ) * f) (hbpos : 0 < b) :
    ((db.no_items_ : ℚ) + 1) ≤ ((mdGrow db).no_buckets_ : ℚ) * f := by
  have hf0 : 0 ≤ f := by
    by_contra hneg
    push_neg at hneg
    have hlt0 : (b : ℚ) * f < 0 :=
      mul_neg_of_pos_of_neg (by exact_mod_cast hbpos) hneg
    linarith
  have hc : (b : ℚ) ≤ (db.no_buckets_ : ℚ) := by exact_mod_cast hb
  have hnbf : 1 ≤ (db.no_buckets_ : ℚ) * f := by
    have := mul_le_mul_of_nonneg_right hc hf0
    linarith
  by_cases hguard : db.no_items_ + 1 ≥ db.next_resize_
  · rw [mdGrow, if_pos hguard, mdRehash_no_buckets]
    push_cast
    linarith
  · rw [mdGrow, if_neg hguard]
    have hlt : db.no_items_ + 1 < db.next_resize_ := by omega
    have hpos : 0 < db.next_resize_ := by omega
    rw [hnr] at hlt hpos
    have hle := cast_nextResizeOf_le hpos
    have hcast : ((db.no_items_ : ℚ) + 1) < (nextResizeOf db.no_buckets_ f : ℚ) := by
      exact_mod_cast hlt
    linarith

theorem mdGrow_no_buckets_ge (db : map_database) :
    db.no_buckets_ ≤ (mdGrow db).no_buckets_ := by
  rw [mdGrow]
  split
  · rw [mdRehash_no_buckets]
    omega
  · exact Nat.le_refl _

theorem mdGrow_next_resize_inv {db : map_database} {f : ℚ}
    (hmlf : db.max_load_factor_ = f)
    (hnr : db.next_resize_ = nextResizeOf db.no_buckets_ f) :
    (mdGrow db).next_resize_ = nextResizeOf (mdGrow db).no_buckets_ f := by
  rw [mdGrow]
  split
  · rw [mdRehash_next_resize, mdRehash_no_buckets, hmlf]
  · exact hnr

theorem applyOp_inv {db db' : map_database} {f : ℚ} {b : Nat} {op : DbOp}
    (happ : applyOp db op = some db')
    (hmlf : db.max_load_factor_ = f)
    (hnr : db.next_resize_ = nextResizeOf db.no_buckets_ f)
    (hload : (db.no_items_ : ℚ) ≤ (db.no_buckets_ : ℚ) * f)
    (hb : b ≤ db.no_buckets_) (hbf : 1 ≤ (b : ℚ) * f) (hbpos : 0 < b) :
    db'.max_load_factor_ = f ∧ db'.next_resize_ = nextResizeOf db'.no_buckets_ f ∧
      (db'.no_items_ : ℚ) ≤ (db'.no_buckets_ : ℚ) * f ∧ b ≤ db'.no_buckets_ := by
  have hgl := mdGrow_load hmlf hnr hload hb hbf hbpos
  have hgnr := mdGrow_next_resize_inv hmlf hnr
  have hgge := mdGrow_no_buckets_ge db
  have hgit := mdGrow_no_items db
  cases op with
  | ins h s len =>
    simp only [applyOp] at happ
    injection happ with happ
    subst happ
    refine ⟨by rw [mdInsert_mlf, hmlf], ?_, ?_, ?_⟩
    · rw [mdInsert_next_resize, mdInsert_no_buckets]
      exact hgnr
    · rw [mdInsert_no_buckets]
      have hcases := mdInsert_no_items_cases db h s len
      have hub : (mdInsert db h s len).2.no_items_ ≤ db.no_items_ + 1 := by
        rcases hcases with hc | hc <;> rw [hc, hgit] <;> omega
      have : ((mdInsert db h s len).2.no_items_ : ℚ) ≤ (db.no_items_ : ℚ) + 1 := by
        exact_mod_cast hub
      linarith
    · rw [mdInsert_no_buckets]
      omega
  | insPre h p s len =>
    simp only [applyOp] at happ
    cases ho : mdInsertPrefix db h p s len with
    | none => rw [ho] at happ; exact absurd happ (by simp)
    | some r =>
      rw [ho, Option.map_some'] at happ
      injection happ with happ
      have hflds := mdInsertPrefix_fields ho
      rw [happ] at hflds
      refine ⟨by rw [hflds.2.2.1, hmlf], ?_, ?_, ?_⟩
      · rw [hflds.2.2.2, hflds.2.1]
        exact hgnr
      · rw [hflds.2.1]
        have hub : db'.no_items_ ≤ db.no_items_ + 1 := by
          rcases hflds.1 with hc | hc <;> rw [hc, hgit] <;> omega
        have hcast : (db'.no_items_ : ℚ) ≤ (db.no_items_ : ℚ) + 1 := by
          exact_mod_cast hub
        linarith
      · rw [hflds.2.1]
        omega

theorem not_hasHash_of_find_none {db : map_database} (hok : DbOk db) {h : Nat}
    (hf : find_node h (bucketOf db h) = none) : ¬ hasHash db h := by
  intro hc
  obtain ⟨nd, hst, hh⟩ := (hasHash_iff hok h).mp hc
  rw [find_bucketOf_eq_some hok hst hh] at hf
  exact absurd hf (by simp)

theorem mdInsert_ok {db : map_database} (hok : DbOk db) (h : Nat) (s : List Nat)
    (len : Nat) : DbOk (mdInsert db h s len).2 := by
  cases hf : find_node h (bucketOf (mdGrow db) h) with
  | some nd =>
    rw [mdInsert_found hok hf s len]
    exact mdGrow_ok hok
  | none =>
    have hno : ¬ hasHash db h := fun hc =>
      not_hasHash_of_find_none (mdGrow_ok hok) hf ((mdGrow_hasHash hok h).mpr hc)
    exact (mdInsert_fresh_props hok hno s len).2.1

theorem mdInsertPrefix_ok {db : map_database} (hok : DbOk db) {h p : Nat} {s : List Nat}
    {len : Nat} {st : insert_status} {db' : map_database}
    (heq : mdInsertPrefix db h p s len = some (st, db')) : DbOk db' := by
  cases hpf : find_node p (bucketOf (mdGrow db) p) with
  | none => rw [mdInsertPrefix_none hpf] at heq; exact absurd heq (by simp)
  | some pn =>
    cases hf : find_node h (bucketOf (mdGrow db) h) with
    | some nd =>
      rw [mdInsertPrefix_found hok hpf hf s len] at heq
      injection heq with heq
      rw [Prod.mk.injEq] at heq
      rw [← heq.2]
      exact mdGrow_ok hok
    | none =>
      have hno : ¬ hasHash db h := fun hc =>
        not_hasHash_of_find_none (mdGrow_ok hok) hf ((mdGrow_hasHash hok h).mpr hc)
      have hfp := mdInsertPrefix_fresh_props hok hpf hno s len
      rw [hfp.1] at heq
      injection heq with heq
      rw [Prod.mk.injEq] at heq
      rw [← heq.2]
      exact hfp.2.1

theorem cString_self (s : List Nat) (hs : (0 : Nat) ∉ s) : cString s = s := by
  induction s with
  | nil => rfl
  | cons b bs ih =>
    have hb : b ≠ 0 := fun hb0 => hs (hb0 ▸ List.mem_cons_self b bs)
    have hbs : (0 : Nat) ∉ bs := fun hm => hs (List.mem_cons_of_mem b hm)
    rw [cString, List.takeWhile_cons_of_pos (by simpa using hb)]
    exact congrArg (b :: ·) (ih hbs)

theorem pow_lower_bound {t : Nat} (h : 1000 < 4 * 2 ^ t) : 1024 ≤ 4 * 2 ^ t := by
  by_cases h8 : 8 ≤ t
  · have h2 : (2 : Nat) ^ 8 ≤ 2 ^ t := Nat.pow_le_pow_right (by norm_num) h8
    have he : (2 : Nat) ^ 8 = 256 := by norm_num
    omega
  · have h7 : t ≤ 7 := by omega
    have h2 : (2 : Nat) ^ t ≤ 2 ^ 7 := Nat.pow_le_pow_right (by norm_num) h7
    have he : (2 : Nat) ^ 7 = 128 := by norm_num
    omega

theorem tgLoopWith_succ (st : Nat → insert_status) (hd : Nat → Option Bool)
    (fuel counter : Nat) :
    tgLoopWith st hd (fuel + 1) counter =
      if st (counter - 1) = .new_string then some (.accepted (counter - 1))
      else
        match hd counter with
        | none => some (.generationError counter)
        | some true => tgLoopWith st hd fuel (counter + 1)
        | some false => some (.accepted (counter - 1)) := rfl

theorem tgLoop_default_all_dup (statuses : Nat → insert_status)
    (hdup : ∀ k, statuses k ≠ .new_string) :
    ∀ (fuel counter : Nat), 1 ≤ counter → counter ≤ no_tries_generation →
      no_tries_generation + 1 - counter ≤ fuel →
      tgLoopWith statuses default_generation_error_handler fuel counter =
        some (.generationError no_tries_generation) := by
  intro fuel
  induction fuel with
  | zero =>
    intro counter _ hle hfuel
    rw [no_tries_generation] at hle hfuel
    omega
  | succ n ih =>
    intro counter h1 hle _
    rw [tgLoopWith_succ, if_neg (hdup (counter - 1))]
    by_cases h8 : no_tries_generation ≤ counter
    · have hc : counter = no_tries_generation := by omega
      have hh : default_generation_error_handler counter = none := by
        rw [default_generation_error_handler, if_pos h8]
      rw [hh, hc]
    · have hh : default_generation_error_handler counter = some true := by
        rw [default_generation_error_handler, if_neg h8]
      rw [hh]
      have h8' : counter < no_tries_generation := by omega
      exact ih (counter + 1) (by omega) (by omega) (by rw [no_tries_generation] at *; omega)

theorem mkMapDatabase_4_1 :
    mkMapDatabase 4 1 = ⟨List.replicate 4 [], 0, 4, 1, 4⟩ := by
  rw [mkMapDatabase, nextResizeOf_one]

theorem mkMapDatabase_tenth :
    mkMapDatabase 4 (1 / 10) = ⟨List.replicate 4 [], 0, 4, 1 / 10, 0⟩ := by
  rw [mkMapDatabase]
  have hf : nextResizeOf 4 (1 / 10) = 0 := by
    rw [nextResizeOf]
    have he : ((4 : Nat) : ℚ) * (1 / 10) = 2 / 5 := by norm_num
    rw [he]
    have hfl : ⌊(2 / 5 : ℚ)⌋ = 0 := by
      apply Int.floor_eq_iff.mpr
      constructor <;> norm_num
    rw [hfl]
    rfl
  rw [hf]

theorem runOps_inv {f : ℚ} {b : Nat} (hbf : 1 ≤ (b : ℚ) * f) (hbpos : 0 < b) :
    ∀ (ops : List DbOp) (db db' : map_database),
      runOps db ops = some db' →
      db.max_load_factor_ = f →
      db.next_resize_ = nextResizeOf db.no_buckets_ f →
      (db.no_items_ : ℚ) ≤ (db.no_buckets_ : ℚ) * f →
      b ≤ db.no_buckets_ →
      db'.max_load_factor_ = f ∧ db'.next_resize_ = nextResizeOf db'.no_buckets_ f ∧
        (db'.no_items_ : ℚ) ≤ (db'.no_buckets_ : ℚ) * f ∧ b ≤ db'.no_buckets_ := by
  intro ops
  induction ops with
  | nil =>
    intro db db' hrun hmlf hnr hload hb
    rw [runOps] at hrun
    injection hrun with hrun
    subst hrun
    exact ⟨hmlf, hnr, hload, hb⟩
  | cons op ops ih =>
    intro db db' hrun hmlf hnr hload hb
    rw [runOps] at hrun
    cases ha : applyOp db op with
    | none => rw [ha] at hrun; exact absurd hrun (by simp)
    | some d1 =>
      rw [ha, Option.some_bind] at hrun
      have hstep := applyOp_inv ha hmlf hnr hload hb hbf hbpos
      exact ih d1 db' hrun hstep.1 hstep.2.1 hstep.2.2.1 hstep.2.2.2

theorem runInserts_lookup (b : Nat) (f : ℚ) (ps : List (Nat × List Nat))
    (hb : 0 < b) (hnd : (ps.map Prod.fst).Nodup)
    (hnz : ∀ q ∈ ps, (0 : Nat) ∉ q.2) :
    ∀ q ∈ ps, mdLookup (runInserts (mkMapDatabase b f) ps) q.1 = some (q.2 ++ [0]) := by
  intro q hq
  have hok0 := mkMapDatabase_ok b f hb
  have hrun := runInserts_spec ps (mkMapDatabase b f) hok0
    (fun r _ => mkMapDatabase_no_hash b f r.1) hnd
  have hstored : StoredN (runInserts (mkMapDatabase b f) ps) (mkNode q.2 q.2.length q.1) :=
    (hrun.2.1 _).mpr (Or.inl (List.mem_map_of_mem _ hq))
  have hl := mdLookup_eq_some hrun.1 hstored
  rw [mkNode_hash, mkNode_mem] at hl
  rw [hl, strncpyBytes_self q.2 (hnz q hq)]

/-- C1: for every sequence of insert calls on a map_database in which no two
calls use the same hash value (strings being null-free C byte strings), each
(hash, string) pair, once inserted, is retrievable by lookup with
byte-identical content (the stored bytes plus the terminator) for the rest of
the store's lifetime, including after any number of rehashes triggered by
later insertions. -/
theorem c1_insert_lookup (b : Nat) (f : ℚ) (ps : List (Nat × List Nat))
    (hb : 0 < b) (hnd : (ps.map Prod.fst).Nodup)
    (hnz : ∀ q ∈ ps, (0 : Nat) ∉ q.2) :
    ∀ q ∈ ps, mdLookup (runInserts (mkMapDatabase b f) ps) q.1 = some (q.2 ++ [0]) :=
  runInserts_lookup b f ps hb hnd hnz

/-- C1 witness: a concrete two-insert run whose growth threshold forces a
rehash between the insertions, with both lookups intact. -/
theorem c1_witness :
    0 < 1 ∧ (([(5, [65]), (9, [66, 67])].map Prod.fst).Nodup) ∧
      (∀ q ∈ [(5, [65]), (9, [66, 67])], (0 : Nat) ∉ q.2) ∧
      mdLookup (runInserts (mkMapDatabase 1 1) [(5, [65]), (9, [66, 67])]) 5 =
        some [65, 0] :=
  ⟨by decide, by decide, by decide,
    c1_insert_lookup 1 1 [(5, [65]), (9, [66, 67])] (by decide) (by decide) (by decide)
      (5, [65]) (by decide)⟩

/-- C2, evaluation at the failing input: map_database(4, 1) stores the bytes
65 66 under hash 5; inserting the different, strictly shorter string with the
single byte 65 under the same hash is reported old_string — not collision —
because node_list::insert compares with strncmp over only the inserted length.
The stored string is 65 66, which differs from the inserted 65. -/
theorem c2_prefix_misreported :
    (mdInsert (mkMapDatabase 4 1) 5 [65, 66] 2).1 = .new_string ∧
      (mdInsert (mdInsert (mkMapDatabase 4 1) 5 [65, 66] 2).2 5 [65] 1).1 = .old_string ∧
      mdLookup (mdInsert (mkMapDatabase 4 1) 5 [65, 66] 2).2 5 = some [65, 66, 0] ∧
      ([65] : List Nat) ≠ [65, 66] := by
  rw [mkMapDatabase_4_1]
  exact ⟨rfl, rfl, rfl, by decide⟩

/-- C7: inserting 1000 strings with pairwise distinct hashes (null-free byte
strings) into a store constructed with bucket_count 4 and max load factor 1
leaves all 1000 lookups returning the stored content, and grows the bucket
count to at least 1024 through successive doublings of the initial 4. -/
theorem c7_end_to_end (ps : List (Nat × List Nat))
    (hlen : ps.length = 1000) (hnd : (ps.map Prod.fst).Nodup)
    (hnz : ∀ q ∈ ps, (0 : Nat) ∉ q.2) :
    (∀ q ∈ ps, mdLookup (runInserts (mkMapDatabase 4 1) ps) q.1 = some (q.2 ++ [0])) ∧
      1024 ≤ (runInserts (mkMapDatabase 4 1) ps).no_buckets_ ∧
      ∃ t, (runInserts (mkMapDatabase 4 1) ps).no_buckets_ = 4 * 2 ^ t := by
  have hok0 := mkMapDatabase_ok 4 (1 : ℚ) (by norm_num)
  have hnr0 : (mkMapDatabase 4 1).next_resize_ = (mkMapDatabase 4 1).no_buckets_ := by
    show nextResizeOf 4 1 = 4
    rw [nextResizeOf_one]
  have hgrow := runInserts_growth ps (mkMapDatabase 4 1) hok0
    (fun r _ => mkMapDatabase_no_hash 4 1 r.1) hnd rfl hnr0 (by decide)
  have hb4 : (mkMapDatabase 4 1).no_buckets_ = 4 := rfl
  have hi0 : (mkMapDatabase 4 1).no_items_ = 0 := rfl
  obtain ⟨t, ht⟩ := hgrow.2.2
  rw [hb4] at ht
  have hitems : (runInserts (mkMapDatabase 4 1) ps).no_items_ = 1000 := by
    rw [hgrow.1, hi0, hlen]
  have hlt : 1000 < (runInserts (mkMapDatabase 4 1) ps).no_buckets_ := by
    rw [← hitems]
    exact hgrow.2.1
  refine ⟨runInserts_lookup 4 1 ps (by norm_num) hnd hnz, ?_, ⟨t, ht⟩⟩
  rw [ht]
  rw [ht] at hlt
  exact pow_lower_bound hlt

/-- C7 witness: the 1000 pairs (i, byte 65) for i below 1000. -/
theorem c7_witness :
    ((List.range 1000).map (fun i => (i, ([65] : List Nat)))).length = 1000 ∧
      1024 ≤ (runInserts (mkMapDatabase 4 1)
        ((List.range 1000).map (fun i => (i, ([65] : List Nat))))).no_buckets_ :=
  ⟨by simp,
    (c7_end_to_end ((List.range 1000).map (fun i => (i, ([65] : List Nat))))
      (by simp)
      (by simp [List.map_map, Function.comp_def, List.nodup_range])
      (by
        intro q hq
        simp only [List.mem_map, List.mem_range] at hq
        obtain ⟨i, _, rfl⟩ := hq
        show (0 : Nat) ∉ [65]
        decide)).2.1⟩

/-- C10: the growth check at the top of map_database::insert and insert_prefix
runs before the duplicate/collision check: when item_count + 1 meets or
exceeds next_resize, the call doubles the bucket count even when it then
returns old_string or collision, leaving item_count unchanged. -/
theorem c10_growth_before_duplicate_check (db : map_database) (h p : Nat)
    (s : List Nat) (len : Nat) (hguard : db.no_items_ + 1 ≥ db.next_resize_) :
    (mdInsert db h s len).2.no_buckets_ = 2 * db.no_buckets_ ∧
      ((mdInsert db h s len).1 ≠ .new_string →
        (mdInsert db h s len).2.no_items_ = db.no_items_) ∧
      (∀ st db', mdInsertPrefix db h p s len = some (st, db') →
        db'.no_buckets_ = 2 * db.no_buckets_ ∧
          (st ≠ .new_string → db'.no_items_ = db.no_items_)) := by
  have hgrow : mdGrow db = mdRehash db := by rw [mdGrow, if_pos hguard]
  refine ⟨?_, ?_, ?_⟩
  · rw [mdInsert_no_buckets, hgrow, mdRehash_no_buckets]
  · intro hne
    rw [mdInsert_eq] at hne ⊢
    dsimp only at hne ⊢
    rw [if_neg hne, hgrow, mdRehash_no_items]
  · intro st db' heq
    rw [mdInsertPrefix_eq] at heq
    cases ho : nlInsertPre (bucketOf (mdGrow db) p) p h s len (bucketOf (mdGrow db) h) with
    | none => rw [ho] at heq; exact absurd heq (by simp)
    | some r =>
      rw [ho, Option.map_some'] at heq
      injection heq with heq
      rw [Prod.mk.injEq] at heq
      constructor
      · rw [← heq.2, hgrow, mdRehash_no_buckets]
      · intro hne
        rw [← heq.2]
        show (if r.1 = .new_string then (mdGrow db).no_items_ + 1
          else (mdGrow db).no_items_) = db.no_items_
        rw [if_neg (by rw [heq.1]; exact hne), hgrow, mdRehash_no_items]

/-- C10 witness: a store at its growth threshold re-receives an already stored
pair; the call returns old_string, the item count stays 1, and the bucket
count still doubles from 2 to 4. -/
theorem c10_witness :
    dbW1.no_items_ + 1 ≥ dbW1.next_resize_ ∧
      (mdInsert dbW1 0 [65] 1).2.no_buckets_ = 2 * dbW1.no_buckets_ ∧
      (mdInsert dbW1 0 [65] 1).1 = .old_string ∧
      (mdInsert dbW1 0 [65] 1).2.no_items_ = dbW1.no_items_ :=
  ⟨by decide,
    (c10_growth_before_duplicate_check dbW1 0 0 [65] 1 (by decide)).1,
    by decide,
    (c10_growth_before_duplicate_check dbW1 0 0 [65] 1 (by decide)).2.1 (by decide)⟩

/-- C3: when the prefix hash p is stored with the (null-free) string X and no
entry exists for h, map_database's optimized insert_prefix produces exactly
the state and Result that insert of X ++ suffix would produce, and so does the
generic default insert_prefix built from lookup, concatenation and insert; the
stored string under h is X ++ suffix with terminator, and the Result is
new_string. -/
theorem c3_insertPrefix_refines (db : map_database) (X suf : List Nat) (h p : Nat)
    (pn : Node) (hok : DbOk db) (hst : StoredN db pn) (hphash : pn.hash = p)
    (hmem : pn.mem = X ++ [0]) (hplen : pn.length = X.length)
    (hX : (0 : Nat) ∉ X) (hsuf : (0 : Nat) ∉ suf) (hno : ¬ hasHash db h) :
    mdInsertPrefix db h p suf suf.length =
        some (mdInsert db h (X ++ suf) (X.length + suf.length)) ∧
      mdInsertPrefixGeneric db h p suf suf.length =
        some (mdInsert db h (X ++ suf) (X.length + suf.length)) ∧
      (mdInsert db h (X ++ suf) (X.length + suf.length)).1 = .new_string ∧
      mdLookup (mdInsert db h (X ++ suf) (X.length + suf.length)).2 h =
        some (X ++ suf ++ [0]) := by
  have hg := mdGrow_ok hok
  have hstg : StoredN (mdGrow db) pn := (mdGrow_stored hok pn).mpr hst
  have hpf : find_node p (bucketOf (mdGrow db) p) = some pn :=
    find_bucketOf_eq_some hg hstg hphash
  have hno' : ¬ hasHash (mdGrow db) h := fun hc => hno ((mdGrow_hasHash hok h).mp hc)
  have hfind := find_bucketOf_eq_none hg hno'
  have hXs : (0 : Nat) ∉ X ++ suf := by
    intro hm
    rcases List.mem_append.mp hm with hm | hm
    · exact hX hm
    · exact hsuf hm
  have hlsum : X.length + suf.length = (X ++ suf).length := (List.length_append X suf).symm
  have hnode : mkNodePrefix pn.mem pn.length suf suf.length h =
      mkNode (X ++ suf) (X.length + suf.length) h := by
    rw [mkNodePrefix, mkNode, hmem, hplen]
    rw [strncpyBytes_front X hX [0], strncpyBytes_self suf hsuf]
    rw [hlsum, strncpyBytes_self (X ++ suf) hXs]
  have hdirect := mdInsert_fresh_eq hfind (X ++ suf) (X.length + suf.length)
  have hopt := mdInsertPrefix_fresh_eq hpf hfind suf suf.length
  refine ⟨?_, ?_, ?_, ?_⟩
  · rw [hopt, hnode, ← hdirect]
  · have hlook : mdLookup db p = some (X ++ [0]) := by
      have hl := mdLookup_eq_some hok hst
      rw [hphash, hmem] at hl
      exact hl
    rw [mdInsertPrefixGeneric, hlook, Option.map_some']
    dsimp only
    rw [cString_append_null X [] hX, cString_self suf hsuf]
    have hdirect2 := mdInsert_fresh_eq hfind (X ++ suf ++ [0]) (X.length + suf.length)
    have hnode2 : mkNode (X ++ suf ++ [0]) (X.length + suf.length) h =
        mkNode (X ++ suf) (X.length + suf.length) h := by
      rw [mkNode, mkNode, hlsum]
      rw [strncpyBytes_front (X ++ suf) hXs [0], strncpyBytes_self (X ++ suf) hXs]
    rw [hdirect2, hnode2, ← hdirect]
  · exact (mdInsert_fresh_props hok hno (X ++ suf) (X.length + suf.length)).1
  · have hq := mdInsert_fresh_props hok hno (X ++ suf) (X.length + suf.length)
    have hstored : StoredN (mdInsert db h (X ++ suf) (X.length + suf.length)).2
        (mkNode (X ++ suf) (X.length + suf.length) h) := (hq.2.2.2 _).mpr (Or.inl rfl)
    have hl := mdLookup_eq_some hq.2.1 hstored
    rw [mkNode_hash, mkNode_mem] at hl
    rw [hl, hlsum, strncpyBytes_self (X ++ suf) hXs, List.append_assoc]

/-- C3 witness: the store dbWPre holds the byte 65 under hash 1 and sits at
its growth threshold; prefix-inserting the byte 66 under hash 2 equals the
plain insert of bytes 65 66, through a rehash. -/
theorem c3_witness :
    DbOk dbWPre ∧ ¬ hasHash dbWPre 2 ∧
      mdInsertPrefix dbWPre 2 1 [66] 1 = some (mdInsert dbWPre 2 [65, 66] 2) ∧
      mdInsertPrefixGeneric dbWPre 2 1 [66] 1 = some (mdInsert dbWPre 2 [65, 66] 2) :=
  ⟨by decide, by decide,
    (c3_insertPrefix_refines dbWPre [65] [66] 2 1 (mkNode [65] 1 1) (by decide) (by decide)
      (by decide) (by decide) (by decide) (by decide) (by decide) (by decide)).1,
    (c3_insertPrefix_refines dbWPre [65] [66] 2 1 (mkNode [65] 1 1) (by decide) (by decide)
      (by decide) (by decide) (by decide) (by decide) (by decide) (by decide)).2.1⟩

/-- C4 counterexample: dbA4 and dbB4 agree on the bucket of hash 2 (which holds
bytes 65 66 under hash 2) and on every count, and differ only in the bucket of
the prefix hash 1; insert_prefix(2, 1, byte 66) returns old_string on one and
collision on the other, so the result of a duplicate/collision call does
depend on the prefix bucket's contents. -/
theorem c4_counterexample :
    (mdInsertPrefix dbA4 2 1 [66] 1).map Prod.fst = some .old_string ∧
      (mdInsertPrefix dbB4 2 1 [66] 1).map Prod.fst = some .collision ∧
      bucketOf dbA4 2 = bucketOf dbB4 2 ∧
      dbA4.no_items_ = dbB4.no_items_ ∧ dbA4.no_buckets_ = dbB4.no_buckets_ ∧
      dbA4.next_resize_ = dbB4.next_resize_ ∧
      ¬ ((mdInsertPrefix dbA4 2 1 [66] 1).map Prod.fst =
          (mdInsertPrefix dbB4 2 1 [66] 1).map Prod.fst) := by
  exact ⟨by decide, by decide, by decide, by decide, by decide, by decide, by decide⟩

/-- C4, amended: in map_database's insert_prefix the prefix lookup runs before
the existence check for the target hash: if the prefix hash is absent the
assertion fires (the call does not complete) even when the target hash exists,
and when both are found the old_string/collision outcome is computed by
strequal from the stored prefix string, so it depends on the prefix bucket's
contents. -/
theorem c4_amended (db : map_database) (h p : Nat) (s : List Nat) (len : Nat)
    (hok : DbOk db) :
    (find_node p (bucketOf (mdGrow db) p) = none → mdInsertPrefix db h p s len = none) ∧
      (∀ pn nd, find_node p (bucketOf (mdGrow db) p) = some pn →
        find_node h (bucketOf (mdGrow db) h) = some nd →
        mdInsertPrefix db h p s len =
          some ((if strequal pn.mem s len nd.mem then .old_string else .collision),
            mdGrow db)) :=
  ⟨fun hpf => mdInsertPrefix_none hpf,
    fun pn nd hpf hf => mdInsertPrefix_found hok hpf hf s len⟩

/-- C4 amended witness: in dbA4 the prefix node of hash 1 and the target node
of hash 2 are both found, and the call resolves through strequal against the
stored prefix bytes. -/
theorem c4_amended_witness :
    DbOk dbA4 ∧
      mdInsertPrefix dbA4 2 1 [66] 1 =
        some ((if strequal (mkNode [65] 1 1).mem [66] 1 (mkNode [65, 66] 2 2).mem
          then insert_status.old_string else insert_status.collision), mdGrow dbA4) :=
  ⟨by decide,
    (c4_amended dbA4 2 1 [66] 1 (by decide)).2 (mkNode [65] 1 1) (mkNode [65, 66] 2 2)
      (by decide) (by decide)⟩

/-- C5 counterexample: constructed with 4 buckets and max load factor 1/10,
the very first insert completes with 1 item in 8 buckets (the single doubling
of the grow-before-insert step), and 1/8 exceeds 1/10. -/
theorem c5_counterexample :
    ¬ (((mdInsert (mkMapDatabase 4 (1 / 10)) 0 [65] 1).2.no_items_ : ℚ) /
        ((mdInsert (mkMapDatabase 4 (1 / 10)) 0 [65] 1).2.no_buckets_ : ℚ) ≤
      (mkMapDatabase 4 (1 / 10)).max_load_factor_) := by
  rw [mkMapDatabase_tenth]
  have h1 : (mdInsert (⟨List.replicate 4 [], 0, 4, 1 / 10, 0⟩ : map_database)
      0 [65] 1).2.no_items_ = 1 := rfl
  have h2 : (mdInsert (⟨List.replicate 4 [], 0, 4, 1 / 10, 0⟩ : map_database)
      0 [65] 1).2.no_buckets_ = 8 := rfl
  have h3 : (⟨List.replicate 4 [], 0, 4, 1 / 10, 0⟩ : map_database).max_load_factor_ =
      1 / 10 := rfl
  rw [h1, h2, h3]
  norm_num

/-- C5, amended: provided bucket_count times max_load_factor is at least 1 at
construction, after every completed insert or insert_prefix call the ratio
item_count / bucket_count stays at or below max_load_factor and bucket_count
never falls below its initial value; next_resize always equals
floor(bucket_count times max_load_factor), and the bucket count doubles before
the insertion exactly when item_count + 1 meets or exceeds it. -/
theorem c5_amended (b : Nat) (f : ℚ) (ops : List DbOp) (db' : map_database)
    (hbpos : 0 < b) (hbf : 1 ≤ (b : ℚ) * f)
    (hrun : runOps (mkMapDatabase b f) ops = some db') :
    (db'.no_items_ : ℚ) / (db'.no_buckets_ : ℚ) ≤ f ∧
      b ≤ db'.no_buckets_ ∧
      db'.next_resize_ = nextResizeOf db'.no_buckets_ f ∧
      db'.max_load_factor_ = f ∧
      (∀ (d : map_database) (h2 : Nat) (s2 : List Nat) (len2 : Nat),
        d.no_items_ + 1 ≥ d.next_resize_ →
          (mdInsert d h2 s2 len2).2.no_buckets_ = 2 * d.no_buckets_) ∧
      (∀ (d : map_database) (h2 : Nat) (s2 : List Nat) (len2 : Nat),
        ¬ d.no_items_ + 1 ≥ d.next_resize_ →
          (mdInsert d h2 s2 len2).2.no_buckets_ = d.no_buckets_) := by
  have hload0 : ((mkMapDatabase b f).no_items_ : ℚ) ≤
      ((mkMapDatabase b f).no_buckets_ : ℚ) * f := by
    show ((0 : Nat) : ℚ) ≤ ((b : Nat) : ℚ) * f
    push_cast
    linarith
  have hinv := runOps_inv hbf hbpos ops (mkMapDatabase b f) db' hrun rfl rfl hload0
    (Nat.le_refl b)
  have hnbpos : (0 : ℚ) < (db'.no_buckets_ : ℚ) := by
    have hble : b ≤ db'.no_buckets_ := hinv.2.2.2
    exact_mod_cast Nat.lt_of_lt_of_le hbpos hble
  refine ⟨?_, hinv.2.2.2, hinv.2.1, hinv.1, ?_, ?_⟩
  · rw [div_le_iff hnbpos]
    have := hinv.2.2.1
    linarith
  · intro d h2 s2 len2 hg
    rw [mdInsert_no_buckets, mdGrow, if_pos hg, mdRehash_no_buckets]
  · intro d h2 s2 len2 hg
    rw [mdInsert_no_buckets, mdGrow, if_neg hg]

/-- C5 amended witness: one insert into a one-bucket store with load factor 1;
the ratio after it is 1/2. -/
theorem c5_amended_witness :
    0 < 1 ∧ (1 : ℚ) ≤ ((1 : Nat) : ℚ) * 1 ∧
      (((mdInsert (mkMapDatabase 1 1) 0 [65] 1).2.no_items_ : ℚ) /
        ((mdInsert (mkMapDatabase 1 1) 0 [65] 1).2.no_buckets_ : ℚ) ≤ 1) :=
  ⟨by decide, by norm_num,
    (c5_amended 1 1 [DbOp.ins 0 [65] 1] ((mdInsert (mkMapDatabase 1 1) 0 [65] 1).2)
      (by decide) (by norm_num) rfl).1⟩

/-- C6: rehash allocates twice the buckets, relinks every entry into bucket
hash mod the new bucket count, preserves the multiset of stored entries
exactly, and every bucket chain stays strictly increasing by hash — before
the rehash, after it, and after every insert and insert_prefix. -/
theorem c6_rehash_relink (db : map_database) (hok : DbOk db) :
    (mdRehash db).no_buckets_ = 2 * db.no_buckets_ ∧
      (mdRehash db).buckets_.length = 2 * db.no_buckets_ ∧
      List.Perm (allNodes (mdRehash db)) (allNodes db) ∧
      (∀ y, StoredN (mdRehash db) y ↔ StoredN db y) ∧
      DbOk (mdRehash db) ∧
      (∀ h s len, DbOk (mdInsert db h s len).2) ∧
      (∀ h p s len st db', mdInsertPrefix db h p s len = some (st, db') → DbOk db') := by
  have hro := mdRehash_ok_stored hok
  refine ⟨mdRehash_no_buckets db, ?_, ?_, hro.2, hro.1,
    fun h s len => mdInsert_ok hok h s len,
    fun h p s len st db' heq => mdInsertPrefix_ok hok heq⟩
  · rw [hro.1.buckets_length, mdRehash_no_buckets]
  · apply (List.perm_ext_iff_of_nodup (allNodes_nodup hro.1) (allNodes_nodup hok)).mpr
    intro a
    rw [mem_allNodes_iff hro.1 a, mem_allNodes_iff hok a]
    exact hro.2 a

/-- C6 witness: rehashing the two-entry store dbW6 doubles its bucket count
and keeps both entries stored. -/
theorem c6_witness :
    DbOk dbW6 ∧ (mdRehash dbW6).no_buckets_ = 2 * dbW6.no_buckets_ ∧
      (∀ y, StoredN (mdRehash dbW6) y ↔ StoredN dbW6 y) :=
  ⟨by decide, (c6_rehash_relink dbW6 (by decide)).1,
    (c6_rehash_relink dbW6 (by decide)).2.2.2.1⟩

/-- C8: a call of insert or insert_prefix that returns old_string or collision
leaves the set of stored entries and the item count unchanged — in particular
the originally stored string for that hash is untouched and every lookup is
unchanged — and inserting the same (hash, string) pair twice returns
new_string then old_string with the item count increasing exactly once. -/
theorem c8_duplicate_and_collision (db : map_database) (h : Nat) (s : List Nat)
    (len : Nat) (hok : DbOk db) (hfresh : ¬ hasHash db h) :
    (∀ h2 s2 len2, (mdInsert db h2 s2 len2).1 ≠ .new_string →
      (mdInsert db h2 s2 len2).2.no_items_ = db.no_items_ ∧
        (∀ y, StoredN (mdInsert db h2 s2 len2).2 y ↔ StoredN db y) ∧
        (∀ h3, mdLookup (mdInsert db h2 s2 len2).2 h3 = mdLookup db h3)) ∧
      (∀ h2 p2 s2 len2 st db2, mdInsertPrefix db h2 p2 s2 len2 = some (st, db2) →
        st ≠ .new_string →
        db2.no_items_ = db.no_items_ ∧ (∀ y, StoredN db2 y ↔ StoredN db y) ∧
          (∀ h3, mdLookup db2 h3 = mdLookup db h3)) ∧
      ((mdInsert db h s len).1 = .new_string ∧
        (mdInsert (mdInsert db h s len).2 h s len).1 = .old_string ∧
        (mdInsert db h s len).2.no_items_ = db.no_items_ + 1 ∧
        (mdInsert (mdInsert db h s len).2 h s len).2.no_items_ = db.no_items_ + 1) := by
  refine ⟨?_, ?_, ?_⟩
  · intro h2 s2 len2 hne
    rw [mdInsert_not_new hok h2 s2 len2 hne]
    exact ⟨mdGrow_no_items db, mdGrow_stored hok,
      fun h3 => mdLookup_congr (mdGrow_ok hok) hok (mdGrow_stored hok) h3⟩
  · intro h2 p2 s2 len2 st db2 heq hne
    rw [mdInsertPrefix_not_new hok heq hne]
    exact ⟨mdGrow_no_items db, mdGrow_stored hok,
      fun h3 => mdLookup_congr (mdGrow_ok hok) hok (mdGrow_stored hok) h3⟩
  · have hq := mdInsert_fresh_props hok hfresh s len
    have hok1 := hq.2.1
    have hst1 : StoredN (mdInsert db h s len).2 (mkNode s len h) :=
      (hq.2.2.2 _).mpr (Or.inl rfl)
    have hstg : StoredN (mdGrow (mdInsert db h s len).2) (mkNode s len h) :=
      (mdGrow_stored hok1 _).mpr hst1
    have hf2 : find_node h (bucketOf (mdGrow (mdInsert db h s len).2) h) =
        some (mkNode s len h) :=
      find_bucketOf_eq_some (mdGrow_ok hok1) hstg (mkNode_hash s len h)
    have hsecond := mdInsert_found hok1 hf2 s len
    refine ⟨hq.1, ?_, hq.2.2.1, ?_⟩
    · rw [hsecond]
      dsimp only
      simp [mkNode_mem, strncmpEq_self len s]
    · rw [hsecond]
      dsimp only
      rw [mdGrow_no_items]
      exact hq.2.2.1

/-- C8 witness: dbW6 does not hold hash 5; inserting (5, byte 67) twice gives
new_string then old_string. -/
theorem c8_witness :
    DbOk dbW6 ∧ ¬ hasHash dbW6 5 ∧
      (mdInsert dbW6 5 [67] 1).1 = .new_string ∧
      (mdInsert (mdInsert dbW6 5 [67] 1).2 5 [67] 1).1 = .old_string :=
  ⟨by decide, by decide,
    (c8_duplicate_and_collision dbW6 5 [67] 1 (by decide) (by decide)).2.2.1,
    (c8_duplicate_and_collision dbW6 5 [67] 1 (by decide) (by decide)).2.2.2.1⟩

/-- C9: the default generation error handler answers retry for try counts
below 8 and throws the generation error once the count reaches 8; a generator
that keeps producing already-existing identifiers is retried and fails with
the generation error after exactly 8 attempts; in the try_generate loop a
retry answer runs one more attempt, and a false answer ends the loop with the
last result returned as-is. -/
theorem c9_generation_retry (statuses : Nat → insert_status)
    (hdup : ∀ k, statuses k ≠ .new_string) :
    (∀ no, (default_generation_error_handler no = some true ↔ no < 8) ∧
      (default_generation_error_handler no = none ↔ 8 ≤ no)) ∧
      tryGenerateDefault statuses = some (.generationError 8) ∧
      (∀ (st2 : Nat → insert_status) (handler : Nat → Option Bool) (fuel counter : Nat),
        st2 (counter - 1) ≠ .new_string → handler counter = some true →
        tgLoopWith st2 handler (fuel + 1) counter =
          tgLoopWith st2 handler fuel (counter + 1)) ∧
      (∀ (st2 : Nat → insert_status) (handler : Nat → Option Bool) (fuel counter : Nat),
        st2 (counter - 1) ≠ .new_string → handler counter = some false →
        tgLoopWith st2 handler (fuel + 1) counter = some (.accepted (counter - 1))) := by
  refine ⟨?_, ?_, ?_, ?_⟩
  · intro no
    rw [default_generation_error_handler, no_tries_generation]
    by_cases h8 : no ≥ 8
    · rw [if_pos h8]
      exact ⟨⟨fun hc => absurd hc (by simp), fun hlt => absurd hlt (by omega)⟩,
        ⟨fun _ => h8, fun _ => rfl⟩⟩
    · rw [if_neg h8]
      exact ⟨⟨fun _ => by omega, fun _ => rfl⟩,
        ⟨fun hc => absurd hc (by simp), fun hge => absurd hge h8⟩⟩
  · have hrun := tgLoop_default_all_dup statuses hdup (no_tries_generation + 1) 1
      (by omega) (by rw [no_tries_generation]; omega) (by omega)
    rw [tryGenerateDefault]
    exact hrun
  · intro st2 handler fuel counter hne hh
    rw [tgLoopWith_succ, if_neg hne, hh]
  · intro st2 handler fuel counter hne hh
    rw [tgLoopWith_succ, if_neg hne, hh]

/-- C9 witness: a generator whose every attempt is a duplicate ends in the
generation error after 8 attempts. -/
theorem c9_witness :
    tryGenerateDefault (fun _ => .old_string) = some (.generationError 8) :=
  (c9_generation_retry (fun _ => .old_string) (fun _ h => insert_status.noConfusion h)).2.1

end StringId
